import Mathlib

/-!
Verification of the detection-decoding pipeline of the saung-cv object-detection
application, a shallow embedding of src/app/services/objectDetection.ts.
IEEE-754 arithmetic of the source is modelled by exact rational arithmetic;
JavaScript division by zero (NaN) is modelled by rational division by zero
(which yields 0), and the divergence is noted where it matters.
-/

namespace SaungDetect

/-- An axis-aligned bounding box, the [x, y, width, height] tuple of the source. -/
structure BBox where
  x : ℚ
  y : ℚ
  w : ℚ
  h : ℚ
deriving DecidableEq

/-- A detection record as produced by the pipeline: class label, confidence,
normalized bounding box.  The source field name is class, a Lean keyword,
rendered here as cls. -/
structure Detection where
  cls : String
  confidence : ℚ
  bbox : BBox
deriving DecidableEq

/-- The fixed class catalog of the service (field classNames of the source). -/
def classNames : List String :=
  ["left_hand", "left_thumb", "saung_instrument", "right_forefinger", "right_hand", "right_thumb"]

/-- calculateIoU of the source: intersection over union of two boxes in
(x, y, width, height) form, 0 when the boxes do not overlap. -/
def iouQ (b1 b2 : BBox) : ℚ :=
  let xLeft := max b1.x b2.x
  let yTop := max b1.y b2.y
  let xRight := min (b1.x + b1.w) (b2.x + b2.w)
  let yBottom := min (b1.y + b1.h) (b2.y + b2.h)
  if xRight < xLeft ∨ yBottom < yTop then 0
  else
    let intersectionArea := (xRight - xLeft) * (yBottom - yTop)
    intersectionArea / (b1.w * b1.h + b2.w * b2.h - intersectionArea)

/-- The default IoU threshold of applyNMS. -/
def iouThreshold : ℚ := 9 / 20

/-- The keep-check of applyNMS: the candidate is blocked when some already
selected detection of the same class overlaps it beyond the threshold. -/
def blocked (sel : List Detection) (d : Detection) : Bool :=
  sel.any fun o => o.cls == d.cls && decide (iouThreshold < iouQ d.bbox o.bbox)

/-- The inner loop of applyNMS over one class bucket: each candidate is
appended to the selected list unless blocked by an earlier selection. -/
def processClass (sel : List Detection) : List Detection → List Detection
  | [] => sel
  | d :: rest =>
    if blocked sel d then processClass sel rest
    else processClass (sel ++ [d]) rest

/-- The class keys in order of first appearance: the iteration order of the
for-in loop over the detectionsByClass record built by applyNMS. -/
def dedupKeys : List Detection → List String
  | [] => []
  | d :: rest => d.cls :: (dedupKeys rest).filter (fun k => k != d.cls)

/-- The bucket of one class key, in list order: detectionsByClass[k]. -/
def classGroup (v : List Detection) (k : String) : List Detection :=
  v.filter (fun d => d.cls == k)

/-- The sublist of detections carrying either of two class keys. -/
def pairGroup (v : List Detection) (k k' : String) : List Detection :=
  v.filter (fun d => d.cls == k || d.cls == k')

/-- Sorting comparator of applyNMS: descending confidence. -/
def descLE (a b : Detection) : Prop := b.confidence ≤ a.confidence

instance : DecidableRel descLE := fun a b =>
  inferInstanceAs (Decidable (b.confidence ≤ a.confidence))

instance : IsTotal Detection descLE := ⟨fun a b => le_total b.confidence a.confidence⟩

instance : IsTrans Detection descLE := ⟨fun _ _ _ h1 h2 => le_trans h2 h1⟩

/-- The stable descending sort of applyNMS.  JavaScript Array.prototype.sort is
specified to be stable; a stable sort under a total preorder has a unique
result, so insertion sort embeds it faithfully. -/
def sortDesc (l : List Detection) : List Detection := l.insertionSort descLE

/-- One class bucket after suppression, starting from an empty selection. -/
def nmsClass (g : List Detection) : List Detection := processClass [] g

/-- The suppressed bucket of class k drawn from the sorted candidate list s. -/
def nmsBlock (s : List Detection) (k : String) : List Detection :=
  nmsClass (classGroup s k)

/-- The outer loop of applyNMS: one processClass pass per class key, growing
one shared selected list. -/
def nmsGroups (s sel : List Detection) : List String → List Detection
  | [] => sel
  | k :: ks => nmsGroups s (processClass sel (classGroup s k)) ks

/-- applyNMS of the source: sort by confidence descending, group by class in
first-appearance order, and keep a candidate unless an already kept detection
of the same class overlaps it beyond the IoU threshold. -/
def applyNMS (l : List Detection) : List Detection :=
  nmsGroups (sortDesc l) [] (dedupKeys (sortDesc l))

/-- The resolved layout of the model output tensor. -/
structure Layout where
  numAnchors : ℕ
  numVectors : ℕ
  channelFirst : Bool
deriving DecidableEq

/-- The shape heuristic of postprocessOutput: the larger of the two trailing
dimensions is taken to be the anchor count. -/
def resolveLayout (dim2 dim3 : ℕ) : Layout :=
  if dim3 > dim2 then ⟨dim3, dim2, true⟩ else ⟨dim2, dim3, false⟩

/-- Flat index of attribute a of anchor i under a layout: channel-first data
stores attribute planes contiguously, anchor-first stores anchor records. -/
def flatIndex (L : Layout) (a i : ℕ) : ℕ :=
  if L.channelFirst then a * L.numAnchors + i else i * L.numVectors + a

/-- hasObjectness of postprocessOutput: an explicit objectness score is
present exactly when the vector width is 5 + classCount. -/
def hasObjectnessFor (numVectors classCount : ℕ) : Bool :=
  numVectors == 5 + classCount

/-- Attribute a of anchor i read from the flat output buffer. -/
def anchorAttr (data : ℕ → ℚ) (L : Layout) (a i : ℕ) : ℚ :=
  data (flatIndex L a i)

/-- The objectness factor of anchor i: read from attribute 4 when present,
taken as 1 otherwise. -/
def anchorObj (data : ℕ → ℚ) (L : Layout) (cc i : ℕ) : ℚ :=
  if hasObjectnessFor L.numVectors cc then anchorAttr data L 4 i else 1

/-- First attribute index of the class scores: 5 with objectness, else 4. -/
def classesStart (hasObj : Bool) : ℕ := if hasObj then 5 else 4

/-- Class score of slot c of anchor i. -/
def anchorScore (data : ℕ → ℚ) (L : Layout) (cc c i : ℕ) : ℚ :=
  anchorAttr data L (classesStart (hasObjectnessFor L.numVectors cc) + c) i

/-- The scan of postprocessOutput for the best class: starting from the
sentinel (-1, -1), each slot replaces the accumulator when strictly greater. -/
def maxScoreFold (score : ℕ → ℚ) (count : ℕ) : ℚ × ℤ :=
  (List.range count).foldl
    (fun acc c => if score c > acc.1 then (score c, (c : ℤ)) else acc) (-1, -1)

/-- Best class score and index of anchor i. -/
def anchorBest (data : ℕ → ℚ) (L : Layout) (cc i : ℕ) : ℚ × ℤ :=
  maxScoreFold (fun c => anchorScore data L cc c i) cc

/-- confidence = objectness * maxClassScore. -/
def anchorConfidence (data : ℕ → ℚ) (L : Layout) (cc i : ℕ) : ℚ :=
  anchorObj data L cc i * (anchorBest data L cc i).1

/-- Math.max(0, Math.min(1, q)). -/
def clamp01 (q : ℚ) : ℚ := max 0 (min 1 q)

/-- Label lookup with the JavaScript fallback: this.classNames[classIndex] is
undefined outside bounds (and an empty label is falsy), in which case the
template string class_<index> is used. -/
def classNameAt (names : List String) (idx : ℤ) : String :=
  let s := if h : 0 ≤ idx ∧ idx.toNat < names.length then names.get ⟨idx.toNat, h.2⟩ else ""
  if s = "" then "class_" ++ toString idx else s

/-- The per-anchor body of the postprocessOutput loop: decode the box, take
the best class, form the confidence, threshold it, normalize and clamp the
coordinates, and drop boxes that are still out of bounds. -/
def anchorDetection (data : ℕ → ℚ) (L : Layout) (names : List String) (S i : ℕ) :
    Option Detection :=
  let cc := names.length
  let cx := anchorAttr data L 0 i
  let cy := anchorAttr data L 1 i
  let w := anchorAttr data L 2 i
  let h := anchorAttr data L 3 i
  let conf := anchorConfidence data L cc i
  if conf > 1 / 4 then
    let x := clamp01 ((cx - w / 2) / (S : ℚ))
    let y := clamp01 ((cy - h / 2) / (S : ℚ))
    let bw := clamp01 (w / (S : ℚ))
    let bh := clamp01 (h / (S : ℚ))
    if 0 ≤ x ∧ 0 ≤ y ∧ x + bw ≤ 1 ∧ y + bh ≤ 1 then
      some ⟨classNameAt names (anchorBest data L cc i).2, conf, ⟨x, y, bw, bh⟩⟩
    else none
  else none

/-- postprocessOutput of the source: resolve the layout, decode every anchor,
collect the surviving detections in anchor order, and apply NMS. -/
def postprocessOutput (data : ℕ → ℚ) (dim2 dim3 : ℕ) (names : List String) (S : ℕ) :
    List Detection :=
  let L := resolveLayout dim2 dim3
  applyNMS ((List.range L.numAnchors).filterMap (anchorDetection data L names S))

/-- The letterbox geometry computed by preprocessImage: the draw rectangle of
the source image inside the square model-input canvas. -/
structure LetterboxGeom where
  drawWidth : ℚ
  drawHeight : ℚ
  offsetX : ℚ
  offsetY : ℚ
deriving DecidableEq

/-- The aspect-ratio preserving resize of preprocessImage: landscape sources
span the full width and are centered vertically, others span the full height
and are centered horizontally. -/
def letterboxGeom (W H S : ℕ) : LetterboxGeom :=
  let aspect : ℚ := (W : ℚ) / (H : ℚ)
  if aspect > 1 then
    ⟨(S : ℚ), (S : ℚ) / aspect, 0, ((S : ℚ) - (S : ℚ) / aspect) / 2⟩
  else
    ⟨(S : ℚ) * aspect, (S : ℚ), ((S : ℚ) - (S : ℚ) * aspect) / 2, 0⟩

/-- A canvas pixel position receives a source sample exactly when it lies in
the draw rectangle.  Modelled from the spec: the canvas fill and drawImage
rasterization are a browser capability outside the repository; a pixel is
drawn when its coordinate falls inside the computed draw rectangle. -/
def coveredPx (g : LetterboxGeom) (px py : ℕ) : Prop :=
  g.offsetX ≤ (px : ℚ) ∧ (px : ℚ) < g.offsetX + g.drawWidth ∧
    g.offsetY ≤ (py : ℚ) ∧ (py : ℚ) < g.offsetY + g.drawHeight

instance (g : LetterboxGeom) (px py : ℕ) : Decidable (coveredPx g px py) := by
  unfold coveredPx; infer_instance

/-- The canvas after the gray fill and the draw: covered positions carry the
sampled source byte, everything else keeps the #808080 fill (128 per
channel).  src c px py is the nearest-neighbor sample of channel c at target
position (px, py), an abstract byte-valued function. -/
def canvasPixel (src : ℕ → ℕ → ℕ → ℕ) (g : LetterboxGeom) (c px py : ℕ) : ℕ :=
  if coveredPx g px py then src c px py else 128

/-- One planar channel of the input tensor: pixel p of the row-major canvas is
(p % S, p / S), its byte divided by 255. -/
def channelPlane (pix : ℕ → ℕ → ℕ → ℕ) (S c : ℕ) : List ℚ :=
  (List.range (S * S)).map (fun p => (pix c (p % S) (p / S) : ℚ) / 255)

/-- The data buffer built by the preprocessImage loop: planar RGB, red plane
then green then blue, each value normalized to [0, 1] by dividing by 255. -/
def preprocessData (src : ℕ → ℕ → ℕ → ℕ) (W H S : ℕ) : List ℚ :=
  let g := letterboxGeom W H S
  channelPlane (canvasPixel src g) S 0 ++ channelPlane (canvasPixel src g) S 1 ++
    channelPlane (canvasPixel src g) S 2

/-- The dims argument of the ort.Tensor built by preprocessImage. -/
def preprocessDims (S : ℕ) : List ℕ := [1, 3, S, S]

/-- Errors that detectObjects can propagate to its caller.  The source throws
Error values; the catch block logs and rethrows them unchanged. -/
inductive DetectError where
  | inferenceTimeout
  | runtimeError
  | noOutputTensor
deriving DecidableEq

/-- The outcome of the race between session.run and the 100ms timeout:
the run promise resolves (with or without a tensor under a known output
name), rejects with a runtime error, or loses the race to the timeout. -/
inductive InferOutcome where
  | timeout
  | runtimeError
  | output (found : Bool) (data : ℕ → ℚ) (dim2 dim3 : ℕ)

/-- The state detectObjects reads: service readiness and media-source
geometry and playback flags. -/
structure MediaState where
  modelLoaded : Bool
  sessionReady : Bool
  width : ℕ
  height : ℕ
  isVideo : Bool
  readyState : ℕ
  paused : Bool
  ended : Bool
  seeking : Bool
  networkLoading : Bool

/-- detectObjects of the source: silent empty results for not-ready
conditions, then preprocessing, the raced inference call, output-tensor
lookup, and postprocessing; every error raised inside the try block is
caught, logged and rethrown unchanged. -/
def detectObjects (st : MediaState) (inf : InferOutcome) :
    Except DetectError (List Detection) :=
  if !st.modelLoaded || !st.sessionReady then .ok []
  else if st.width == 0 || st.height == 0 then .ok []
  else if st.isVideo && (decide (st.readyState < 2) || st.paused || st.ended) then .ok []
  else if st.isVideo && (st.seeking || st.networkLoading) then .ok []
  else
    match inf with
    | .timeout => .error .inferenceTimeout
    | .runtimeError => .error .runtimeError
    | .output found data dim2 dim3 =>
      if !found then .error .noOutputTensor
      else .ok (postprocessOutput data dim2 dim3 classNames 640)

/-- The pairwise compatibility that the suppressor enforces: the later
detection b is not blocked by the earlier kept detection a, either because
their classes differ or because their IoU stays within the threshold. -/
def okD (a b : Detection) : Prop :=
  a.cls = b.cls → iouQ b.bbox a.bbox ≤ iouThreshold

/-- Sortedness by descending confidence. -/
def SortedDesc (l : List Detection) : Prop := l.Pairwise descLE

/-- The comparator refined by original position: strictly larger confidence
first, ties broken by the smaller index.  On lists whose indices increase it
coincides with descLE on the payloads, so sorting by it models the same
stable sort while keeping all entries distinct. -/
def descLE' (p q : ℕ × Detection) : Prop :=
  q.2.confidence < p.2.confidence ∨ (q.2.confidence = p.2.confidence ∧ p.1 ≤ q.1)

instance : DecidableRel descLE' := fun p q =>
  inferInstanceAs (Decidable (q.2.confidence < p.2.confidence ∨
    (q.2.confidence = p.2.confidence ∧ p.1 ≤ q.1)))

/-- The concatenation of a class-keyed block list. -/
def joinBlocks (Bs : List (String × List Detection)) : List Detection :=
  (Bs.map Prod.snd).flatten

/-- Position-decorated blocks: each block enumerated from its running offset,
so that the concatenation of the decorated blocks enumerates the
concatenation of the blocks. -/
def enumBlocks (n : ℕ) :
    List (String × List Detection) → List (String × List (ℕ × Detection))
  | [] => []
  | b :: bs => (b.1, b.2.enumFrom n) :: enumBlocks (n + b.2.length) bs

/-- Heads of a list of decorated blocks. -/
def headsOf (Bl : List (String × List (ℕ × Detection))) : List (ℕ × Detection) :=
  Bl.filterMap (fun b => b.2.head?)

/-- The shape of every suppressor output: blocks keyed by pairwise-distinct
classes, each nonempty, uniform in class, internally sorted by descending
confidence and internally compatible, with block heads in descending
confidence order across blocks. -/
def GoodBlocks (Bs : List (String × List Detection)) : Prop :=
  (Bs.map Prod.fst).Nodup ∧
  (∀ b ∈ Bs, b.2 ≠ [] ∧ (∀ d ∈ b.2, d.cls = b.1) ∧ SortedDesc b.2 ∧
    b.2.Pairwise okD) ∧
  Bs.Pairwise (fun b b' => ∀ a a', b.2.head? = some a → b'.2.head? = some a' →
    a'.confidence ≤ a.confidence)

/-- The single detection surviving the c4data pipeline run. -/
def c4det : Detection := ⟨"saung_instrument", 9 / 10, ⟨1 / 4, 1 / 4, 1 / 2, 1 / 2⟩⟩

/-- A ready service state with a valid still-image source, used to probe
detectObjects concretely. -/
def stReady : MediaState := ⟨true, true, 640, 480, false, 0, false, false, false, false⟩

/-- A constant output buffer whose class scores all sit below the -1 sentinel
of the best-class scan. -/
def c3data : ℕ → ℚ := fun _ => -2

/-- A constant output buffer with all entries 1/2. -/
def c3wdata : ℕ → ℚ := fun _ => 1 / 2

/-- A concrete anchor-first output buffer for ten anchors of ten attributes:
anchor 0 is a centered box of side 320 with class slot 2 scored 9/10, every
other entry is zero. -/
def c4data : ℕ → ℚ := fun idx =>
  ([320, 320, 320, 320, 0, 0, 9 / 10, 0, 0, 0] : List ℚ).getD idx 0

/-- A concrete detection. -/
def c5a : Detection := ⟨"saung_instrument", 9 / 10, ⟨0, 0, 1 / 2, 1 / 2⟩⟩

/-- A lower-confidence duplicate of the same box and class. -/
def c5b : Detection := ⟨"saung_instrument", 3 / 5, ⟨0, 0, 1 / 2, 1 / 2⟩⟩

/-- An all-black source sample. -/
def c8src : ℕ → ℕ → ℕ → ℕ := fun _ _ _ => 0

end SaungDetect

namespace SaungDetect

/-! ## Claim C2: the output layout resolver -/

/-- C2: for an output tensor of shape [1, 10, 8400] and a catalog of 6
labels, the resolver reports channel-first layout with 8400 anchors, 10
vectors and no objectness, reading attribute a of anchor i at flat index
a * numAnchors + i; and for any shape [1, d2, d3] with d3 <= d2 it reports
anchor-first layout with numAnchors = d2, numVectors = d3 and flat index
i * numVectors + a. -/
theorem spec_C2 :
    resolveLayout 10 8400 = ⟨8400, 10, true⟩ ∧
    hasObjectnessFor 10 6 = false ∧
    (∀ a i : ℕ, flatIndex (resolveLayout 10 8400) a i = a * 8400 + i) ∧
    (∀ d2 d3 : ℕ, d3 ≤ d2 →
      resolveLayout d2 d3 = ⟨d2, d3, false⟩ ∧
      ∀ a i : ℕ, flatIndex (resolveLayout d2 d3) a i = i * d3 + a) := by
  have hL : resolveLayout 10 8400 = ⟨8400, 10, true⟩ := by decide
  refine ⟨hL, by decide, fun a i => by rw [hL]; rfl, fun d2 d3 h => ?_⟩
  have hr : resolveLayout d2 d3 = ⟨d2, d3, false⟩ := by
    unfold resolveLayout
    rw [if_neg (by omega)]
  exact ⟨hr, fun a i => by rw [hr]; rfl⟩

/-- Witness for C2 at the anchor-first shape [1, 8400, 10]. -/
theorem spec_C2_witness :
    resolveLayout 8400 10 = ⟨8400, 10, false⟩ ∧
    flatIndex (resolveLayout 8400 10) 3 5 = 5 * 10 + 3 := by
  have h := spec_C2.2.2.2 8400 10 (by norm_num)
  exact ⟨h.1, h.2 3 5⟩

/-! ## Claim C9: not-ready conditions -/

/-- C9: when the model is not yet loaded, or the source width or height is 0,
detectObjects returns an empty detection list and surfaces no error,
whatever the inference outcome would have been. -/
theorem spec_C9 : ∀ (st : MediaState) (inf : InferOutcome),
    st.modelLoaded = false ∨ st.width = 0 ∨ st.height = 0 →
    detectObjects st inf = .ok [] := by
  intro st inf h
  unfold detectObjects
  by_cases h1 : (!st.modelLoaded || !st.sessionReady) = true
  · rw [if_pos h1]
  · rw [if_neg h1]
    have h2 : (st.width == 0 || st.height == 0) = true := by
      rcases h with h | h | h
      · exact absurd (by simp [h]) h1
      · simp [h]
      · simp [h]
    rw [if_pos h2]

/-- Witness for C9: a not-loaded, zero-size source state. -/
theorem spec_C9_witness :
    detectObjects ⟨false, false, 0, 0, false, 0, false, false, false, false⟩
      InferOutcome.timeout = .ok [] :=
  spec_C9 _ _ (Or.inl rfl)

/-! ## Claim C1: the inference timeout -/

/-- Counterexample to C1: on a ready state with a valid source, a timed-out
inference makes detectObjects reject with the Inference timeout error (the
catch block rethrows it), not resolve with an empty list. -/
theorem spec_C1_counterexample :
    detectObjects stReady .timeout = .error .inferenceTimeout ∧
    detectObjects stReady .timeout ≠ .ok [] := by
  refine ⟨rfl, fun h => ?_⟩
  exact Except.noConfusion
    ((rfl : detectObjects stReady .timeout = .error .inferenceTimeout).symm.trans h)

/-- C1 amended: when the inference call exceeds the 100ms timeout on a ready
state and ready source, detectObjects propagates the timeout to its caller as
the Inference timeout error (logged and rethrown); it does not return an
empty detection list. -/
theorem spec_C1_amended : ∀ st : MediaState,
    st.modelLoaded = true → st.sessionReady = true → st.width ≠ 0 → st.height ≠ 0 →
    (st.isVideo = true →
      2 ≤ st.readyState ∧ st.paused = false ∧ st.ended = false ∧
        st.seeking = false ∧ st.networkLoading = false) →
    detectObjects st .timeout = .error .inferenceTimeout := by
  intro st h1 h2 h3 h4 h5
  unfold detectObjects
  rw [if_neg (by simp [h1, h2]), if_neg (by simp [h3, h4])]
  by_cases hv : st.isVideo = true
  · obtain ⟨hr, hp, he, hs, hn⟩ := h5 hv
    rw [if_neg (by simp [hp, he, decide_eq_false (Nat.not_lt.2 hr)]),
      if_neg (by simp [hs, hn])]
  · have hv' : st.isVideo = false := by
      cases hb : st.isVideo
      · rfl
      · exact absurd hb hv
    rw [if_neg (by simp [hv']), if_neg (by simp [hv'])]

/-- Witness for C1 amended at the concrete ready state. -/
theorem spec_C1_witness :
    detectObjects stReady .timeout = .error .inferenceTimeout :=
  spec_C1_amended stReady rfl rfl (by decide) (by decide) (fun h => by
    exact absurd h (by decide))

/-! ## Claim C6: IoU algebra -/

unseal Rat.mul Rat.add Rat.inv Rat.sub in
/-- Counterexample to C6: two identical degenerate boxes have IoU 0 in this
model (0/0, a NaN in the JavaScript float semantics), not 1.0, so the
identity property fails without a positive-area restriction. -/
theorem spec_C6_counterexample :
    iouQ ⟨0, 0, 0, 0⟩ ⟨0, 0, 0, 0⟩ = 0 ∧ iouQ ⟨0, 0, 0, 0⟩ ⟨0, 0, 0, 0⟩ ≠ 1 := by
  constructor
  · decide
  · decide

/-- C6 amended: IoU of two identical boxes of positive width and height is
1.0; the IoU of disjoint boxes (right edge left of left edge, or bottom edge
above top edge) is 0.0; and IoU is symmetric for all box pairs. -/
theorem spec_C6_amended :
    (∀ b : BBox, 0 < b.w → 0 < b.h → iouQ b b = 1) ∧
    (∀ a b : BBox,
      (min (a.x + a.w) (b.x + b.w) < max a.x b.x ∨
        min (a.y + a.h) (b.y + b.h) < max a.y b.y) →
      iouQ a b = 0) ∧
    (∀ a b : BBox, iouQ a b = iouQ b a) := by
  refine ⟨fun b hw hh => ?_, fun a b h => ?_, fun a b => ?_⟩
  · simp only [iouQ]
    rw [max_self, min_self, max_self, min_self]
    rw [if_neg (by push_neg; constructor <;> linarith)]
    have hne : b.w * b.h ≠ 0 := ne_of_gt (mul_pos hw hh)
    have h5 : (b.x + b.w - b.x) * (b.y + b.h - b.y) = b.w * b.h := by ring
    rw [h5]
    have h6 : b.w * b.h + b.w * b.h - b.w * b.h = b.w * b.h := by ring
    rw [h6, div_self hne]
  · simp only [iouQ]
    rw [if_pos h]
  · simp only [iouQ]
    rw [max_comm a.x b.x, min_comm (a.x + a.w) (b.x + b.w),
      max_comm a.y b.y, min_comm (a.y + a.h) (b.y + b.h),
      add_comm (a.w * a.h) (b.w * b.h)]

unseal Rat.mul Rat.add Rat.inv Rat.sub in
/-- Witness for C6 amended: a unit box against itself and against a disjoint
translate. -/
theorem spec_C6_witness :
    iouQ ⟨0, 0, 1, 1⟩ ⟨0, 0, 1, 1⟩ = 1 ∧
    iouQ ⟨0, 0, 1, 1⟩ ⟨5, 0, 1, 1⟩ = 0 ∧
    iouQ ⟨0, 0, 1, 1⟩ ⟨5, 0, 1, 1⟩ = iouQ ⟨5, 0, 1, 1⟩ ⟨0, 0, 1, 1⟩ := by
  refine ⟨spec_C6_amended.1 ⟨0, 0, 1, 1⟩ (by norm_num) (by norm_num),
    spec_C6_amended.2.1 ⟨0, 0, 1, 1⟩ ⟨5, 0, 1, 1⟩ (Or.inl (by decide)),
    spec_C6_amended.2.2 ⟨0, 0, 1, 1⟩ ⟨5, 0, 1, 1⟩⟩

/-! ## Claim C8: the letterbox preprocessor -/

/-- The element of the preprocessed buffer at channel c and pixel (px, py) is
that canvas byte divided by 255. -/
theorem preprocessData_getD (src : ℕ → ℕ → ℕ → ℕ) (W H S c px py : ℕ)
    (hc : c < 3) (hpx : px < S) (hpy : py < S) :
    (preprocessData src W H S).getD (c * (S * S) + (py * S + px)) 0 =
      (canvasPixel src (letterboxGeom W H S) c px py : ℚ) / 255 := by
  have hS : 0 < S := Nat.pos_of_ne_zero (by rintro rfl; exact Nat.not_lt_zero px hpx)
  have hp : py * S + px < S * S := by
    have h1 : py * S + px < (py + 1) * S := by
      rw [Nat.add_mul, Nat.one_mul]
      exact Nat.add_lt_add_left hpx _
    exact Nat.lt_of_lt_of_le h1 (Nat.mul_le_mul_right _ (Nat.succ_le_of_lt hpy))
  have hmod : (py * S + px) % S = px := by
    rw [Nat.add_comm, Nat.add_mul_mod_self_right, Nat.mod_eq_of_lt hpx]
  have hdiv : (py * S + px) / S = py := by
    rw [Nat.add_comm, Nat.add_mul_div_right _ _ hS, Nat.div_eq_of_lt hpx, Nat.zero_add]
  have hplane : ∀ pix : ℕ → ℕ → ℕ → ℕ, ∀ ch,
      (channelPlane pix S ch)[py * S + px]? = some ((pix ch px py : ℚ) / 255) := by
    intro pix ch
    unfold channelPlane
    rw [List.getElem?_map, List.getElem?_range hp]
    simp only [Option.map_some']
    rw [hmod, hdiv]
  have hlen : ∀ pix : ℕ → ℕ → ℕ → ℕ, ∀ ch, (channelPlane pix S ch).length = S * S := by
    intro pix ch
    unfold channelPlane
    rw [List.length_map, List.length_range]
  unfold preprocessData
  rw [List.getD_eq_getElem?_getD]
  interval_cases c
  · rw [Nat.zero_mul, Nat.zero_add]
    rw [List.getElem?_append_left (by
      rw [List.length_append, hlen, hlen]
      exact Nat.lt_of_lt_of_le hp (Nat.le_add_right _ _))]
    rw [List.getElem?_append_left (by rw [hlen]; exact hp), hplane]
    rfl
  · rw [Nat.one_mul]
    rw [List.getElem?_append_left (by
      rw [List.length_append, hlen, hlen]
      exact Nat.add_lt_add_left hp _)]
    rw [List.getElem?_append_right (by rw [hlen]; exact Nat.le_add_right _ _)]
    have he : S * S + (py * S + px) -
        (channelPlane (canvasPixel src (letterboxGeom W H S)) S 0).length = py * S + px := by
      rw [hlen, Nat.add_sub_cancel_left]
    rw [he, hplane]
    rfl
  · have htwo : 2 * (S * S) + (py * S + px) = S * S + S * S + (py * S + px) := by ring
    rw [htwo]
    rw [List.getElem?_append_right (by
      rw [List.length_append, hlen, hlen]
      exact Nat.le_add_right _ _)]
    have he : S * S + S * S + (py * S + px) -
        (channelPlane (canvasPixel src (letterboxGeom W H S)) S 0 ++
          channelPlane (canvasPixel src (letterboxGeom W H S)) S 1).length = py * S + px := by
      rw [List.length_append, hlen, hlen, Nat.add_sub_cancel_left]
    rw [he, hplane]
    rfl

/-- Counterexample to C8: the tensor built by preprocessImage is constructed
with dims [1, 3, S, S] (a leading batch dimension), not [3, S, S] as the
claim states. -/
theorem spec_C8_counterexample :
    preprocessDims 640 = [1, 3, 640, 640] ∧ preprocessDims 640 ≠ [3, 640, 640] := by
  exact ⟨rfl, by decide⟩

/-- C8 amended: for every source of positive width and height and target size
S, the preprocessor produces a tensor of shape [1, 3, S, S] (a single-image
batch of a planar RGB [3, S, S] volume) with exactly 3*S*S elements, every
element in [0, 1] (bytes divided by 255), and every position in the padded
border region where no source pixel was drawn equal to 128/255. -/
theorem spec_C8_amended : ∀ (src : ℕ → ℕ → ℕ → ℕ) (W H S : ℕ),
    0 < W → 0 < H → (∀ c px py, src c px py ≤ 255) →
    preprocessDims S = [1, 3, S, S] ∧
    (preprocessData src W H S).length = 3 * S * S ∧
    (∀ q ∈ preprocessData src W H S, 0 ≤ q ∧ q ≤ 1) ∧
    (∀ c px py, c < 3 → px < S → py < S →
      ¬ coveredPx (letterboxGeom W H S) px py →
      (preprocessData src W H S).getD (c * (S * S) + (py * S + px)) 0 = 128 / 255) := by
  intro src W H S hW hH hsrc
  have hbyte : ∀ c px py, canvasPixel src (letterboxGeom W H S) c px py ≤ 255 := by
    intro c px py
    unfold canvasPixel
    split
    · exact hsrc c px py
    · norm_num
  refine ⟨rfl, ?_, ?_, ?_⟩
  · unfold preprocessData channelPlane
    simp only [List.length_append, List.length_map, List.length_range]
    ring
  · have hmem : ∀ ch, ∀ q ∈ channelPlane (canvasPixel src (letterboxGeom W H S)) S ch,
        0 ≤ q ∧ q ≤ 1 := by
      intro ch q hq
      unfold channelPlane at hq
      obtain ⟨p, hp1, rfl⟩ := List.mem_map.1 hq
      constructor
      · positivity
      · rw [div_le_one (by norm_num)]
        exact_mod_cast hbyte ch (p % S) (p / S)
    intro q hq
    unfold preprocessData at hq
    rcases List.mem_append.1 hq with h | h
    · rcases List.mem_append.1 h with h2 | h2
      · exact hmem 0 q h2
      · exact hmem 1 q h2
    · exact hmem 2 q h
  · intro c px py hc hpx hpy hcov
    rw [preprocessData_getD src W H S c px py hc hpx hpy]
    unfold canvasPixel
    rw [if_neg hcov]
    norm_num

unseal Rat.mul Rat.add Rat.inv Rat.sub in
/-- Witness for C8 amended: a 4x2 all-black source letterboxed into a 4x4
target; the top-left corner is padding and reads 128/255. -/
theorem spec_C8_witness :
    (preprocessData c8src 4 2 4).length = 3 * 4 * 4 ∧
    (preprocessData c8src 4 2 4).getD (0 * (4 * 4) + (0 * 4 + 0)) 0 = 128 / 255 := by
  have h := spec_C8_amended c8src 4 2 4 (by norm_num) (by norm_num) (fun _ _ _ => by
    unfold c8src; omega)
  exact ⟨h.2.1, h.2.2.2 0 0 0 (by norm_num) (by norm_num) (by norm_num) (by decide)⟩

/-! ## Claim C3: the per-anchor class scan -/

/-- Invariant of the best-class scan: its result is either the untouched
(-1, -1) sentinel with every slot at most -1, or the first maximum among the
slots, provided it exceeds -1. -/
theorem maxScoreFold_spec (score : ℕ → ℚ) : ∀ n : ℕ,
    (maxScoreFold score n = (-1, -1) ∧ ∀ c < n, score c ≤ -1) ∨
    (∃ j < n, maxScoreFold score n = (score j, (j : ℤ)) ∧ -1 < score j ∧
      (∀ c < n, score c ≤ score j) ∧ ∀ c < j, score c < score j) := by
  intro n
  induction n with
  | zero => exact Or.inl ⟨rfl, fun c hc => absurd hc (Nat.not_lt_zero c)⟩
  | succ n ih =>
    have hstep : maxScoreFold score (n + 1) =
        (if score n > (maxScoreFold score n).1
          then (score n, (n : ℤ)) else maxScoreFold score n) := by
      unfold maxScoreFold
      rw [List.range_succ, List.foldl_append, List.foldl_cons, List.foldl_nil]
    rcases ih with ⟨heq, hall⟩ | ⟨j, hj, heq, hgt, hmax, hfst⟩
    · rw [heq] at hstep
      by_cases hn : score n > -1
      · right
        refine ⟨n, Nat.lt_succ_self n, ?_, hn, ?_, ?_⟩
        · rw [hstep, if_pos hn]
        · intro c hc
          rcases Nat.lt_succ_iff_lt_or_eq.1 hc with hc | hc
          · exact le_trans (hall c hc) (le_of_lt hn)
          · rw [hc]
        · intro c hc
          exact lt_of_le_of_lt (hall c hc) hn
      · left
        refine ⟨by rw [hstep, if_neg hn], fun c hc => ?_⟩
        rcases Nat.lt_succ_iff_lt_or_eq.1 hc with hc | hc
        · exact hall c hc
        · rw [hc]; exact not_lt.1 hn
    · rw [heq] at hstep
      by_cases hn : score n > score j
      · right
        refine ⟨n, Nat.lt_succ_self n, by rw [hstep, if_pos hn], lt_trans hgt hn,
          fun c hc => ?_, fun c hc => ?_⟩
        · rcases Nat.lt_succ_iff_lt_or_eq.1 hc with hc | hc
          · exact le_trans (hmax c hc) (le_of_lt hn)
          · rw [hc]
        · exact lt_of_le_of_lt (hmax c hc) hn
      · right
        refine ⟨j, Nat.lt_succ_of_lt hj, by rw [hstep, if_neg hn], hgt,
          fun c hc => ?_, hfst⟩
        rcases Nat.lt_succ_iff_lt_or_eq.1 hc with hc | hc
        · exact hmax c hc
        · rw [hc]; exact not_lt.1 hn

unseal Rat.mul Rat.add Rat.inv Rat.sub in
/-- Counterexample to C3: on an output whose six class scores all equal -2,
the decoder reports maxClassScore -1 (the scan sentinel) and classIndex -1,
although the maximum over the class-score slots is -2; (maxClassScore,
classIndex) is not the maximum of the slots and its index. -/
theorem spec_C3_counterexample :
    (∀ c < 6, anchorScore c3data (resolveLayout 10 11) 6 c 0 = -2) ∧
    anchorBest c3data (resolveLayout 10 11) 6 0 = (-1, -1) ∧
    ((-1 : ℚ) ≠ -2) := by
  refine ⟨by decide, by decide, by norm_num⟩

/-- C3 amended: whenever some class-score slot exceeds the -1 sentinel (in
particular for any nonnegative score), the decoder's (maxClassScore,
classIndex) is the maximum over all classCount slots together with the first
index attaining it; confidence is objectness times maxClassScore, with
objectness read from attribute 4 when numVectors = 5 + classCount and taken
as 1.0 when numVectors = 4 + classCount; and an anchor is emitted only if its
confidence exceeds 0.25. -/
theorem spec_C3_amended : ∀ (data : ℕ → ℚ) (L : Layout) (cc i : ℕ),
    ((∃ c, c < cc ∧ -1 < anchorScore data L cc c i) →
      (∀ c, c < cc → anchorScore data L cc c i ≤ (anchorBest data L cc i).1) ∧
      ∃ j, j < cc ∧ anchorBest data L cc i = (anchorScore data L cc j i, (j : ℤ)) ∧
        ∀ c, c < j → anchorScore data L cc c i < anchorScore data L cc j i) ∧
    (L.numVectors = 5 + cc → anchorObj data L cc i = anchorAttr data L 4 i) ∧
    (L.numVectors = 4 + cc → anchorObj data L cc i = 1) ∧
    anchorConfidence data L cc i = anchorObj data L cc i * (anchorBest data L cc i).1 ∧
    (∀ names S d, names.length = cc → anchorDetection data L names S i = some d →
      anchorConfidence data L cc i > 1 / 4) := by
  intro data L cc i
  refine ⟨fun ⟨c0, hc0, hgt0⟩ => ?_, fun h5 => ?_, fun h4 => ?_, rfl, ?_⟩
  · rcases maxScoreFold_spec (fun c => anchorScore data L cc c i) cc with
      ⟨_, hall⟩ | ⟨j, hj, heq, _, hmax, hfst⟩
    · exact absurd (hall c0 hc0) (not_le.2 hgt0)
    · exact ⟨fun c hc => by rw [anchorBest, heq]; exact hmax c hc,
        j, hj, heq, hfst⟩
  · unfold anchorObj
    rw [if_pos]
    unfold hasObjectnessFor
    rw [h5]
    exact beq_self_eq_true _
  · unfold anchorObj
    rw [if_neg]
    unfold hasObjectnessFor
    rw [h4]
    simp only [Nat.beq_eq_true_eq]
    omega
  · intro names S d hlen h
    unfold anchorDetection at h
    rw [hlen] at h
    by_cases hconf : anchorConfidence data L cc i > 1 / 4
    · exact hconf
    · rw [if_neg hconf] at h
      exact Option.noConfusion h

unseal Rat.mul Rat.add Rat.inv Rat.sub in
/-- Witness for C3 amended: a constant buffer of 1/2 under the [1, 10, 11]
channel-first layout with six classes. -/
theorem spec_C3_witness :
    (∀ c, c < 6 → anchorScore c3wdata (resolveLayout 10 11) 6 c 0 ≤
      (anchorBest c3wdata (resolveLayout 10 11) 6 0).1) ∧
    anchorObj c3wdata (resolveLayout 10 11) 6 0 = 1 := by
  have h := spec_C3_amended c3wdata (resolveLayout 10 11) 6 0
  exact ⟨(h.1 ⟨0, by norm_num, by decide⟩).1, h.2.2.1 (by decide)⟩

/-! ## Structural lemmas about the suppressor -/

/-- The keep-check fails exactly when every selected detection is compatible
with the candidate. -/
theorem blocked_eq_false {sel : List Detection} {d : Detection} :
    blocked sel d = false ↔ ∀ o ∈ sel, okD o d := by
  simp only [blocked, okD, List.any_eq_false, Bool.and_eq_true, beq_iff_eq,
    decide_eq_true_eq, not_and, not_lt]

/-- The keep-check succeeds exactly when some selected detection of the same
class overlaps the candidate beyond the threshold. -/
theorem blocked_eq_true {sel : List Detection} {d : Detection} :
    blocked sel d = true ↔ ∃ o ∈ sel, o.cls = d.cls ∧ iouThreshold < iouQ d.bbox o.bbox := by
  simp only [blocked, List.any_eq_true, Bool.and_eq_true, beq_iff_eq, decide_eq_true_eq]

/-- Shape of one processClass pass: the selected list is extended by a
sublist of the candidates, each new entry compatible with every earlier
selected entry and with every earlier new entry. -/
theorem processClass_spec : ∀ (cands sel : List Detection),
    ∃ new, processClass sel cands = sel ++ new ∧ new.Sublist cands ∧
      (∀ b ∈ new, ∀ a ∈ sel, okD a b) ∧ new.Pairwise okD := by
  intro cands
  induction cands with
  | nil =>
    exact fun sel => ⟨[], by simp [processClass], List.nil_sublist _, by simp,
      List.Pairwise.nil⟩
  | cons d rest ih =>
    intro sel
    cases hb : blocked sel d with
    | true =>
      obtain ⟨new, h1, h2, h3, h4⟩ := ih sel
      exact ⟨new, by rw [processClass, if_pos hb]; exact h1, h2.cons _, h3, h4⟩
    | false =>
      obtain ⟨new, h1, h2, h3, h4⟩ := ih (sel ++ [d])
      have hok : ∀ a ∈ sel, okD a d := blocked_eq_false.1 hb
      refine ⟨d :: new, ?_, h2.cons₂ _, ?_, ?_⟩
      · rw [processClass, if_neg (by rw [hb]; exact Bool.false_ne_true), h1,
          List.append_assoc, List.singleton_append]
      · intro b hbmem a ha
        rcases List.mem_cons.1 hbmem with rfl | hbmem
        · exact hok a ha
        · exact h3 b hbmem a (List.mem_append_left _ ha)
      · rw [List.pairwise_cons]
        exact ⟨fun b hbmem => h3 b hbmem d (List.mem_append_right _ (List.mem_singleton_self d)),
          h4⟩

/-- processClass keeps every already selected detection. -/
theorem mem_processClass_of_mem_sel {cands sel : List Detection} {d : Detection}
    (h : d ∈ sel) : d ∈ processClass sel cands := by
  obtain ⟨new, h1, _, _, _⟩ := processClass_spec cands sel
  rw [h1]
  exact List.mem_append_left _ h

/-- Every output of processClass comes from the selected list or the
candidate list. -/
theorem mem_processClass {cands sel : List Detection} {d : Detection}
    (h : d ∈ processClass sel cands) : d ∈ sel ∨ d ∈ cands := by
  obtain ⟨new, h1, h2, _, _⟩ := processClass_spec cands sel
  rw [h1] at h
  rcases List.mem_append.1 h with h | h
  · exact Or.inl h
  · exact Or.inr (h2.mem h)

/-- processClass produces at most the selected plus the candidates. -/
theorem processClass_length_le (cands sel : List Detection) :
    (processClass sel cands).length ≤ sel.length + cands.length := by
  obtain ⟨new, h1, h2, _, _⟩ := processClass_spec cands sel
  rw [h1, List.length_append]
  exact Nat.add_le_add_left h2.length_le _

/-- A discarded candidate always has a kept same-class witness overlapping it
beyond the threshold. -/
theorem processClass_discard_reason : ∀ (cands sel : List Detection) (d : Detection),
    d ∈ cands → d ∉ processClass sel cands →
    ∃ o ∈ processClass sel cands, o.cls = d.cls ∧ iouThreshold < iouQ d.bbox o.bbox := by
  intro cands
  induction cands with
  | nil => exact fun sel d h => absurd h (List.not_mem_nil d)
  | cons c rest ih =>
    intro sel d hd hnot
    cases hb : blocked sel c with
    | false =>
      rw [processClass, if_neg (by rw [hb]; exact Bool.false_ne_true)] at hnot ⊢
      rcases List.mem_cons.1 hd with rfl | hd
      · exact absurd (mem_processClass_of_mem_sel
          (List.mem_append_right _ (List.mem_singleton_self d))) hnot
      · exact ih (sel ++ [c]) d hd hnot
    | true =>
      rw [processClass, if_pos hb] at hnot ⊢
      rcases List.mem_cons.1 hd with rfl | hd
      · obtain ⟨o, ho, hcls, hiou⟩ := blocked_eq_true.1 hb
        exact ⟨o, mem_processClass_of_mem_sel ho, hcls, hiou⟩
      · exact ih sel d hd hnot

/-- A class key is recorded exactly when some detection carries it. -/
theorem mem_dedupKeys : ∀ (v : List Detection) (k : String),
    k ∈ dedupKeys v ↔ ∃ x ∈ v, x.cls = k := by
  intro v
  induction v with
  | nil => intro k; simp [dedupKeys]
  | cons d w ih =>
    intro k
    simp only [dedupKeys, List.mem_cons, List.mem_filter, ih, bne_iff_ne, ne_eq,
      List.mem_cons]
    constructor
    · rintro (rfl | ⟨⟨x, hx, rfl⟩, _⟩)
      · exact ⟨d, Or.inl rfl, rfl⟩
      · exact ⟨x, Or.inr hx, rfl⟩
    · rintro ⟨x, rfl | hx, rfl⟩
      · exact Or.inl rfl
      · by_cases hk : x.cls = d.cls
        · exact Or.inl hk
        · exact Or.inr ⟨⟨x, hx, rfl⟩, hk⟩

/-- The key list never repeats a class. -/
theorem nodup_dedupKeys : ∀ v : List Detection, (dedupKeys v).Nodup := by
  intro v
  induction v with
  | nil => exact List.nodup_nil
  | cons d w ih =>
    rw [dedupKeys, List.nodup_cons]
    refine ⟨fun hmem => ?_, ih.filter _⟩
    obtain ⟨-, hne⟩ := List.mem_filter.1 hmem
    exact (bne_iff_ne.1 hne) rfl

/-- The class buckets of the distinct keys partition the list: their lengths
sum to the length of the list. -/
theorem sum_classGroup_length : ∀ v : List Detection,
    ((dedupKeys v).map (fun k => (classGroup v k).length)).sum = v.length := by
  intro v
  induction v with
  | nil => rfl
  | cons d w ih =>
    have hgrp_pos : classGroup (d :: w) d.cls = d :: classGroup w d.cls := by
      unfold classGroup
      rw [List.filter_cons_of_pos (by simp)]
    have hgrp_neg : ∀ k, k ≠ d.cls → classGroup (d :: w) k = classGroup w k := by
      intro k hk
      unfold classGroup
      rw [List.filter_cons_of_neg (by simp; exact fun h => hk h.symm)]
    rw [dedupKeys, List.map_cons, List.sum_cons, hgrp_pos]
    have hcongr : ((dedupKeys w).filter (fun k => k != d.cls)).map
        (fun k => (classGroup (d :: w) k).length) =
        ((dedupKeys w).filter (fun k => k != d.cls)).map
        (fun k => (classGroup w k).length) := by
      apply List.map_congr_left
      intro k hk
      rw [hgrp_neg k (bne_iff_ne.1 (List.mem_filter.1 hk).2)]
    rw [hcongr]
    by_cases hd : d.cls ∈ dedupKeys w
    · have hperm : List.Perm (dedupKeys w)
          (d.cls :: (dedupKeys w).filter (fun k => k != d.cls)) := by
        rw [← List.Nodup.erase_eq_filter (nodup_dedupKeys w) d.cls]
        exact List.perm_cons_erase hd
      have hsum := (hperm.map (fun k => (classGroup w k).length)).sum_eq
      rw [List.map_cons, List.sum_cons] at hsum
      rw [ih] at hsum
      simp only [List.length_cons]
      omega
    · have hempty : classGroup w d.cls = [] := by
        rcases hge : classGroup w d.cls with _ | ⟨x, xs⟩
        · rfl
        · exfalso
          have hx : x ∈ classGroup w d.cls := by rw [hge]; exact List.mem_cons_self x xs
          obtain ⟨hxw, hxc⟩ := List.mem_filter.1 hx
          exact hd ((mem_dedupKeys w d.cls).2 ⟨x, hxw, beq_iff_eq.1 hxc⟩)
      have hfil : (dedupKeys w).filter (fun k => k != d.cls) = dedupKeys w := by
        apply List.filter_eq_self.2
        intro k hk
        exact bne_iff_ne.2 (fun he => hd (he ▸ hk))
      rw [hfil, ih, hempty]
      simp only [List.length_cons, List.length_nil]
      omega

/-- Detections already selected survive the remaining group passes. -/
theorem mem_nmsGroups_of_mem_sel {s : List Detection} : ∀ (ks : List String)
    (sel : List Detection) (d : Detection), d ∈ sel → d ∈ nmsGroups s sel ks := by
  intro ks
  induction ks with
  | nil => exact fun sel d h => h
  | cons k ks ih => exact fun sel d h => ih _ d (mem_processClass_of_mem_sel h)

/-- Everything the group passes produce comes from the selected list or the
sorted candidate list. -/
theorem mem_nmsGroups {s : List Detection} : ∀ (ks : List String)
    (sel : List Detection) (d : Detection), d ∈ nmsGroups s sel ks →
    d ∈ sel ∨ d ∈ s := by
  intro ks
  induction ks with
  | nil => exact fun sel d h => Or.inl h
  | cons k ks ih =>
    intro sel d h
    rcases ih _ d h with h | h
    · rcases mem_processClass h with h | h
      · exact Or.inl h
      · exact Or.inr (List.mem_of_mem_filter h)
    · exact Or.inr h

/-- The group passes grow the output by at most the bucket sizes. -/
theorem nmsGroups_length_le {s : List Detection} : ∀ (ks : List String)
    (sel : List Detection), (nmsGroups s sel ks).length ≤
      sel.length + (ks.map (fun k => (classGroup s k).length)).sum := by
  intro ks
  induction ks with
  | nil => exact fun sel => Nat.le_add_right _ _
  | cons k ks ih =>
    intro sel
    rw [List.map_cons, List.sum_cons]
    calc (nmsGroups s (processClass sel (classGroup s k)) ks).length
        ≤ (processClass sel (classGroup s k)).length +
            (ks.map (fun k => (classGroup s k).length)).sum := ih _
      _ ≤ sel.length + (classGroup s k).length +
            (ks.map (fun k => (classGroup s k).length)).sum := by
            exact Nat.add_le_add_right (processClass_length_le _ _) _
      _ = sel.length + ((classGroup s k).length +
            (ks.map (fun k => (classGroup s k).length)).sum) := by omega

/-- Every suppressor output element is an element of the input. -/
theorem applyNMS_subset {l : List Detection} {d : Detection}
    (h : d ∈ applyNMS l) : d ∈ l := by
  unfold applyNMS at h
  rcases mem_nmsGroups _ _ _ h with h | h
  · exact absurd h (List.not_mem_nil d)
  · exact (List.mem_insertionSort descLE).1 h

/-! ## Claim C10: the suppressor output is a subset of its input -/

/-- C10: for every input list, each detection returned by applyNMS is an
element of the input list (with class, confidence and bbox unchanged, being
the same record), and the output is no longer than the input. -/
theorem spec_C10 : ∀ l : List Detection,
    (∀ d ∈ applyNMS l, d ∈ l) ∧ (applyNMS l).length ≤ l.length := by
  intro l
  refine ⟨fun d h => applyNMS_subset h, ?_⟩
  unfold applyNMS
  calc (nmsGroups (sortDesc l) [] (dedupKeys (sortDesc l))).length
      ≤ ([] : List Detection).length +
          ((dedupKeys (sortDesc l)).map
            (fun k => (classGroup (sortDesc l) k).length)).sum := nmsGroups_length_le _ _
    _ = (sortDesc l).length := by
        rw [sum_classGroup_length (sortDesc l)]
        exact Nat.zero_add _
    _ = l.length := List.length_insertionSort _ _

unseal Rat.mul Rat.add Rat.inv Rat.sub in
/-- Witness for C10 on a concrete two-element input. -/
theorem spec_C10_witness :
    c5a ∈ [c5a, c5b] ∧ (applyNMS [c5a, c5b]).length ≤ 2 :=
  ⟨(spec_C10 [c5a, c5b]).1 c5a (by decide), (spec_C10 [c5a, c5b]).2⟩

/-! ## Claim C5: class-aware suppression -/

/-- Inside the group passes, a dropped detection of a listed class always has
a kept same-class witness overlapping it beyond the threshold. -/
theorem nmsGroups_discard_reason {s : List Detection} : ∀ (ks : List String)
    (sel : List Detection) (d : Detection), d.cls ∈ ks → d ∈ classGroup s d.cls →
    d ∉ nmsGroups s sel ks →
    ∃ o ∈ nmsGroups s sel ks, o.cls = d.cls ∧ iouThreshold < iouQ d.bbox o.bbox := by
  intro ks
  induction ks with
  | nil => exact fun sel d h => absurd h (List.not_mem_nil _)
  | cons k ks ih =>
    intro sel d hk hd hnot
    rcases List.mem_cons.1 hk with hk | hk
    · rw [nmsGroups] at hnot ⊢
      by_cases hmem : d ∈ processClass sel (classGroup s k)
      · exact absurd (mem_nmsGroups_of_mem_sel ks _ d hmem) hnot
      · obtain ⟨o, ho, hcls, hiou⟩ :=
          processClass_discard_reason (classGroup s k) sel d (hk ▸ hd) hmem
        exact ⟨o, mem_nmsGroups_of_mem_sel ks _ o ho, hcls, hiou⟩
    · exact ih _ d hk hd hnot

/-- C5: the suppressor discards a detection only in favour of an overlapping
kept detection of the same class, so a detection whose class differs from
every kept detection always survives. -/
theorem spec_C5 : ∀ (l : List Detection) (d : Detection), d ∈ l →
    (d ∉ applyNMS l →
      ∃ o ∈ applyNMS l, o.cls = d.cls ∧ iouThreshold < iouQ d.bbox o.bbox) ∧
    ((∀ o ∈ applyNMS l, o.cls ≠ d.cls) → d ∈ applyNMS l) := by
  intro l d hd
  have hmain : d ∉ applyNMS l →
      ∃ o ∈ applyNMS l, o.cls = d.cls ∧ iouThreshold < iouQ d.bbox o.bbox := by
    intro hnot
    have hs : d ∈ sortDesc l := (List.mem_insertionSort descLE).2 hd
    have hk : d.cls ∈ dedupKeys (sortDesc l) :=
      (mem_dedupKeys _ _).2 ⟨d, hs, rfl⟩
    have hg : d ∈ classGroup (sortDesc l) d.cls :=
      List.mem_filter.2 ⟨hs, beq_iff_eq.2 rfl⟩
    exact nmsGroups_discard_reason _ _ d hk hg hnot
  refine ⟨hmain, fun hall => ?_⟩
  by_contra hnot
  obtain ⟨o, ho, hcls, -⟩ := hmain hnot
  exact hall o ho hcls

unseal Rat.mul Rat.add Rat.inv Rat.sub in
/-- Witness for C5: the lower-confidence duplicate is discarded in favour of
the kept same-class box. -/
theorem spec_C5_witness :
    ∃ o ∈ applyNMS [c5a, c5b], o.cls = c5b.cls ∧
      iouThreshold < iouQ c5b.bbox o.bbox :=
  (spec_C5 [c5a, c5b] c5b (by decide)).1 (by decide)

/-! ## Claim C4: the coordinate invariant -/

/-- Clamping never goes below 0. -/
theorem clamp01_nonneg (q : ℚ) : 0 ≤ clamp01 q := le_max_left _ _

/-- Clamping never exceeds 1. -/
theorem clamp01_le_one (q : ℚ) : clamp01 q ≤ 1 :=
  max_le (by norm_num) (min_le_left _ _)

/-- Every emitted anchor detection satisfies the normalized-box invariant. -/
theorem anchorDetection_bounds {data : ℕ → ℚ} {L : Layout} {names : List String}
    {S i : ℕ} {d : Detection} (h : anchorDetection data L names S i = some d) :
    0 ≤ d.bbox.x ∧ d.bbox.x ≤ 1 ∧ 0 ≤ d.bbox.y ∧ d.bbox.y ≤ 1 ∧
      d.bbox.x + d.bbox.w ≤ 1 ∧ d.bbox.y + d.bbox.h ≤ 1 ∧
      0 ≤ d.bbox.w ∧ 0 ≤ d.bbox.h := by
  simp only [anchorDetection] at h
  split at h
  · split at h
    · rename_i hguard
      obtain ⟨h1, h2, h3, h4⟩ := hguard
      cases Option.some.inj h
      exact ⟨h1, clamp01_le_one _, h2, clamp01_le_one _, h3, h4,
        clamp01_nonneg _, clamp01_nonneg _⟩
    · exact Option.noConfusion h
  · exact Option.noConfusion h

/-- C4: every detection produced by postprocessOutput satisfies
0 <= x <= 1, 0 <= y <= 1, x + width <= 1, y + height <= 1 (with nonnegative
width and height); and an anchor whose clamped coordinates still overflow the
unit square is discarded rather than emitted. -/
theorem spec_C4 :
    (∀ (data : ℕ → ℚ) (dim2 dim3 : ℕ) (names : List String) (S : ℕ)
      (d : Detection), d ∈ postprocessOutput data dim2 dim3 names S →
      0 ≤ d.bbox.x ∧ d.bbox.x ≤ 1 ∧ 0 ≤ d.bbox.y ∧ d.bbox.y ≤ 1 ∧
        d.bbox.x + d.bbox.w ≤ 1 ∧ d.bbox.y + d.bbox.h ≤ 1 ∧
        0 ≤ d.bbox.w ∧ 0 ≤ d.bbox.h) ∧
    (∀ (data : ℕ → ℚ) (L : Layout) (names : List String) (S i : ℕ),
      (1 < clamp01 ((anchorAttr data L 0 i - anchorAttr data L 2 i / 2) / (S : ℚ)) +
          clamp01 (anchorAttr data L 2 i / (S : ℚ)) ∨
        1 < clamp01 ((anchorAttr data L 1 i - anchorAttr data L 3 i / 2) / (S : ℚ)) +
          clamp01 (anchorAttr data L 3 i / (S : ℚ))) →
      anchorDetection data L names S i = none) := by
  constructor
  · intro data dim2 dim3 names S d hd
    unfold postprocessOutput at hd
    have hmem := applyNMS_subset hd
    obtain ⟨i, -, hsome⟩ := List.mem_filterMap.1 hmem
    exact anchorDetection_bounds hsome
  · intro data L names S i hover
    simp only [anchorDetection]
    split
    · rw [if_neg]
      rintro ⟨-, -, h3, h4⟩
      rcases hover with hover | hover
      · exact absurd h3 (not_le.2 hover)
      · exact absurd h4 (not_le.2 hover)
    · rfl

unseal Rat.mul Rat.add Rat.inv Rat.sub in
/-- Witness for C4 on the concrete c4data pipeline run. -/
theorem spec_C4_witness :
    0 ≤ c4det.bbox.x ∧ c4det.bbox.x ≤ 1 ∧ 0 ≤ c4det.bbox.y ∧ c4det.bbox.y ≤ 1 ∧
      c4det.bbox.x + c4det.bbox.w ≤ 1 ∧ c4det.bbox.y + c4det.bbox.h ≤ 1 ∧
      0 ≤ c4det.bbox.w ∧ 0 ≤ c4det.bbox.h :=
  spec_C4.1 c4data 10 10 classNames 640 c4det (by decide)

/-! ## Claim C7: idempotence of the suppressor.

The proof characterizes every suppressor output as a join of well-formed
class blocks (GoodBlocks) and shows that applyNMS fixes every such join.
Stability of the sort is transported through a position-decorated copy of
the list, on which all entries are distinct. -/

/-- A pass whose candidates are all compatible with the selection and with
each other keeps everything. -/
theorem processClass_keep_all : ∀ (cands sel : List Detection),
    (∀ b ∈ cands, ∀ a ∈ sel, okD a b) → cands.Pairwise okD →
    processClass sel cands = sel ++ cands := by
  intro cands
  induction cands with
  | nil => intro sel _ _; rw [processClass, List.append_nil]
  | cons d rest ih =>
    intro sel hall hpair
    have hb : blocked sel d = false :=
      blocked_eq_false.2 (fun o ho => hall d (List.mem_cons_self d rest) o ho)
    rw [processClass, if_neg (by rw [hb]; exact Bool.false_ne_true)]
    rw [ih (sel ++ [d]) ?_ (List.Pairwise.sublist (List.sublist_cons_self d rest) hpair)]
    · rw [List.append_assoc, List.singleton_append]
    · intro b hbm a ham
      rcases List.mem_append.1 ham with ham | ham
      · exact hall b (List.mem_cons_of_mem d hbm) a ham
      · rw [List.mem_singleton.1 ham]
        exact (List.pairwise_cons.1 hpair).1 b hbm

/-- Selected detections of classes foreign to the candidates neither block
anything nor change what is kept: they sit as an inert prefix. -/
theorem processClass_foreign_prefix : ∀ (cands sel0 acc : List Detection),
    (∀ d ∈ cands, ∀ o ∈ sel0, o.cls ≠ d.cls) →
    processClass (sel0 ++ acc) cands = sel0 ++ processClass acc cands := by
  intro cands
  induction cands with
  | nil => intro sel0 acc _; rw [processClass, processClass]
  | cons d rest ih =>
    intro sel0 acc hforeign
    have hb0 : blocked sel0 d = false :=
      blocked_eq_false.2 (fun o ho hcls =>
        absurd hcls (hforeign d (List.mem_cons_self d rest) o ho))
    have hsplit : blocked (sel0 ++ acc) d = blocked acc d := by
      unfold blocked at hb0 ⊢
      rw [List.any_append, hb0, Bool.false_or]
    rw [processClass, processClass, hsplit]
    cases hacc : blocked acc d with
    | true =>
      rw [if_pos rfl]
      exact ih sel0 acc (fun x hx => hforeign x (List.mem_cons_of_mem d hx))
    | false =>
      rw [if_neg Bool.false_ne_true, List.append_assoc]
      exact ih sel0 (acc ++ [d]) (fun x hx => hforeign x (List.mem_cons_of_mem d hx))

/-- A nonempty bucket keeps its head. -/
theorem nmsClass_cons (d : Detection) (t : List Detection) :
    ∃ new, nmsClass (d :: t) = d :: new ∧ new.Sublist t := by
  have hb : blocked [] d = false := rfl
  obtain ⟨new, h1, h2, -, -⟩ := processClass_spec t [d]
  refine ⟨new, ?_, h2⟩
  rw [nmsClass, processClass, if_neg (by rw [hb]; exact Bool.false_ne_true)]
  show processClass [d] t = d :: new
  rw [h1, List.singleton_append]

/-- The head of a suppressed bucket is the head of the bucket. -/
theorem nmsClass_head? (g : List Detection) : (nmsClass g).head? = g.head? := by
  cases g with
  | nil => rfl
  | cons d t =>
    obtain ⟨new, h1, -⟩ := nmsClass_cons d t
    rw [h1, List.head?_cons, List.head?_cons]

/-- The suppressed bucket is a sublist of the bucket. -/
theorem nmsClass_sublist (g : List Detection) : (nmsClass g).Sublist g := by
  obtain ⟨new, h1, h2, -, -⟩ := processClass_spec g []
  rw [nmsClass, h1, List.nil_append]
  exact h2

/-- The suppressed bucket is internally compatible. -/
theorem nmsClass_pairwise (g : List Detection) : (nmsClass g).Pairwise okD := by
  obtain ⟨new, h1, -, -, h4⟩ := processClass_spec g []
  rw [nmsClass, h1, List.nil_append]
  exact h4

/-- Over distinct keys foreign to the current selection, the group passes
append the suppressed buckets in key order. -/
theorem nmsGroups_join {s : List Detection} : ∀ (ks : List String) (sel : List Detection),
    ks.Nodup → (∀ d ∈ sel, d.cls ∉ ks) →
    nmsGroups s sel ks = sel ++ (ks.map (nmsBlock s)).flatten := by
  intro ks
  induction ks with
  | nil => intro sel _ _; rw [nmsGroups, List.map_nil, List.flatten_nil, List.append_nil]
  | cons k ks ih =>
    intro sel hnodup hforeign
    have hsel : processClass sel (classGroup s k) = sel ++ nmsBlock s k := by
      have := processClass_foreign_prefix (classGroup s k) sel []
      rw [List.append_nil] at this
      exact this (fun d hd o ho => by
        rw [beq_iff_eq.1 (List.mem_filter.1 hd).2]
        exact fun hc => hforeign o ho (hc ▸ List.mem_cons_self k ks))
    rw [nmsGroups, hsel, List.map_cons, List.flatten_cons, ← List.append_assoc]
    apply ih (sel ++ nmsBlock s k) (List.nodup_cons.1 hnodup).2
    intro d hd hk
    rcases List.mem_append.1 hd with hd | hd
    · exact hforeign d hd (List.mem_cons_of_mem k hk)
    · have hg := (nmsClass_sublist (classGroup s k)).mem hd
      rw [beq_iff_eq.1 (List.mem_filter.1 hg).2] at hk
      exact (List.nodup_cons.1 hnodup).1 hk

/-- The suppressor output, expressed as the join of its per-class blocks. -/
theorem applyNMS_eq_blocks (l : List Detection) :
    applyNMS l = joinBlocks ((dedupKeys (sortDesc l)).map
      (fun k => (k, nmsBlock (sortDesc l) k))) := by
  rw [applyNMS, nmsGroups_join _ _ (nodup_dedupKeys _) (fun d hd => absurd hd
    (List.not_mem_nil d)), List.nil_append, joinBlocks, List.map_map]
  rfl

/-- For a sorted list, the heads of the class buckets appear in descending
confidence order along the key list. -/
theorem dedupKeys_heads_pairwise : ∀ v : List Detection, SortedDesc v →
    (dedupKeys v).Pairwise (fun k k' => ∀ a a',
      (classGroup v k).head? = some a → (classGroup v k').head? = some a' →
      a'.confidence ≤ a.confidence) := by
  intro v
  induction v with
  | nil => intro _; exact List.Pairwise.nil
  | cons d w ih =>
    intro hsort
    obtain ⟨hd, hsortw⟩ := List.pairwise_cons.1 hsort
    rw [dedupKeys, List.pairwise_cons]
    constructor
    · intro k' hk' a a' ha ha'
      have hk'ne : k' ≠ d.cls := bne_iff_ne.1 (List.mem_filter.1 hk').2
      have hgd : classGroup (d :: w) d.cls = d :: classGroup w d.cls := by
        unfold classGroup
        rw [List.filter_cons_of_pos (by simp)]
      rw [hgd, List.head?_cons] at ha
      have hgk : classGroup (d :: w) k' = classGroup w k' := by
        unfold classGroup
        rw [List.filter_cons_of_neg (by simp [hk'ne.symm])]
      rw [hgk] at ha'
      have ha'mem : a' ∈ classGroup w k' := List.mem_of_mem_head? (ha' ▸ rfl)
      have := hd a' (List.mem_of_mem_filter ha'mem)
      rw [← Option.some.inj ha]
      exact this
    · have hpw := (ih hsortw).filter (fun k => k != d.cls)
      refine hpw.imp_of_mem ?_
      intro k k' hk hk' hrel a a' ha ha'
      have hkne : k ≠ d.cls := bne_iff_ne.1 (List.mem_filter.1 hk).2
      have hk'ne : k' ≠ d.cls := bne_iff_ne.1 (List.mem_filter.1 hk').2
      have hgk : classGroup (d :: w) k = classGroup w k := by
        unfold classGroup
        rw [List.filter_cons_of_neg (by simp [hkne.symm])]
      have hgk' : classGroup (d :: w) k' = classGroup w k' := by
        unfold classGroup
        rw [List.filter_cons_of_neg (by simp [hk'ne.symm])]
      exact hrel a a' (hgk ▸ ha) (hgk' ▸ ha')

/-- Claim 1 of the idempotence argument: every suppressor output is the join
of a well-formed block list. -/
theorem applyNMS_good (l : List Detection) :
    ∃ Bs, GoodBlocks Bs ∧ applyNMS l = joinBlocks Bs := by
  set s := sortDesc l with hs
  have hsorted : SortedDesc s := List.sorted_insertionSort descLE l
  refine ⟨(dedupKeys s).map (fun k => (k, nmsBlock s k)), ⟨?_, ?_, ?_⟩,
    applyNMS_eq_blocks l⟩
  · rw [List.map_map]
    have : (fun b => Prod.fst b) ∘ (fun k => (k, nmsBlock s k)) = id := rfl
    rw [this, List.map_id]
    exact nodup_dedupKeys s
  · intro b hb
    obtain ⟨k, hk, rfl⟩ := List.mem_map.1 hb
    refine ⟨?_, ?_, ?_, nmsClass_pairwise _⟩
    · obtain ⟨x, hx, hxcls⟩ := (mem_dedupKeys s k).1 hk
      have hgx : x ∈ classGroup s k := List.mem_filter.2 ⟨hx, beq_iff_eq.2 hxcls⟩
      rcases hgrp : classGroup s k with _ | ⟨y, ys⟩
      · rw [hgrp] at hgx
        exact absurd hgx (List.not_mem_nil x)
      · obtain ⟨new, h1, -⟩ := nmsClass_cons y ys
        rw [show nmsBlock s k = nmsClass (y :: ys) by rw [nmsBlock, hgrp], h1]
        exact List.cons_ne_nil y new
    · intro d hdm
      have hg := (nmsClass_sublist (classGroup s k)).mem hdm
      exact beq_iff_eq.1 (List.mem_filter.1 hg).2
    · exact List.Pairwise.sublist ((nmsClass_sublist _).trans (List.filter_sublist s)) hsorted
  · have hpw := dedupKeys_heads_pairwise s hsorted
    rw [List.pairwise_map]
    refine hpw.imp (fun hrel a a' ha ha' => ?_)
    rw [nmsBlock, nmsClass_head?] at ha ha'
    exact hrel a a' ha ha'

/-- On position-decorated pairs whose indices increase, the refined
comparator agrees with the plain one. -/
theorem descLE'_iff {p q : ℕ × Detection} (h : p.1 < q.1) :
    descLE' p q ↔ descLE p.2 q.2 := by
  unfold descLE' descLE
  constructor
  · rintro (hlt | ⟨heq, -⟩)
    · exact le_of_lt hlt
    · exact le_of_eq heq
  · intro hle
    rcases lt_or_eq_of_le hle with hlt | heq
    · exact Or.inl hlt
    · exact Or.inr ⟨heq, le_of_lt h⟩

/-- Indices of an enumeration start at the offset. -/
theorem fst_ge_of_mem_enumFrom : ∀ {u : List Detection} {n : ℕ} {q : ℕ × Detection},
    q ∈ u.enumFrom n → n ≤ q.1 := by
  intro u
  induction u with
  | nil => intro n q h; exact absurd h (List.not_mem_nil q)
  | cons x t ih =>
    intro n q h
    rcases List.mem_cons.1 h with rfl | h
    · exact le_refl n
    · exact le_of_lt (Nat.lt_of_lt_of_le (Nat.lt_succ_self n) (ih h))

/-- Payloads of an enumeration are elements of the list. -/
theorem snd_mem_of_mem_enumFrom {u : List Detection} {n : ℕ} {q : ℕ × Detection}
    (h : q ∈ u.enumFrom n) : q.2 ∈ u := by
  have hm := List.mem_map_of_mem Prod.snd h
  rwa [List.enumFrom_map_snd] at hm

/-- An enumeration has no duplicate entries. -/
theorem nodup_enumFrom (u : List Detection) (n : ℕ) : (u.enumFrom n).Nodup := by
  have h : (List.map Prod.fst (u.enumFrom n)).Nodup := by
    rw [List.enumFrom_map_fst]
    exact List.nodup_range' n u.length
  exact h.of_map

/-- Inserting a decorated entry below every index projects to the plain
ordered insertion. -/
theorem map_snd_orderedInsert : ∀ (L : List (ℕ × Detection)) (n : ℕ) (x : Detection),
    (∀ q ∈ L, n < q.1) →
    (L.orderedInsert descLE' (n, x)).map Prod.snd =
      (L.map Prod.snd).orderedInsert descLE x := by
  intro L
  induction L with
  | nil => intro n x _; rfl
  | cons q rest ih =>
    intro n x h
    have hiff : descLE' (n, x) q ↔ descLE x q.2 :=
      descLE'_iff (h q (List.mem_cons_self q rest))
    by_cases hxq : descLE x q.2
    · simp only [List.map_cons, List.orderedInsert]
      rw [if_pos (hiff.2 hxq), if_pos hxq, List.map_cons, List.map_cons]
    · simp only [List.map_cons, List.orderedInsert]
      rw [if_neg (fun hc => hxq (hiff.1 hc)), if_neg hxq, List.map_cons,
        ih n x (fun r hr => h r (List.mem_cons_of_mem q hr))]

/-- Sorting the enumeration by the refined comparator projects to the plain
stable sort. -/
theorem map_snd_insertionSort : ∀ (u : List Detection) (n : ℕ),
    ((u.enumFrom n).insertionSort descLE').map Prod.snd = u.insertionSort descLE := by
  intro u
  induction u with
  | nil => intro n; rfl
  | cons x t ih =>
    intro n
    rw [List.enumFrom_cons, List.insertionSort, List.insertionSort,
      map_snd_orderedInsert _ n x ?_, ih (n + 1)]
    intro q hq
    have hm : q ∈ t.enumFrom (n + 1) := (List.mem_insertionSort descLE').1 hq
    exact Nat.lt_of_lt_of_le (Nat.lt_succ_self n) (fst_ge_of_mem_enumFrom hm)

/-- Enumerating a concatenation enumerates the parts with shifted offsets. -/
theorem enumFrom_append_det : ∀ (u w : List Detection) (n : ℕ),
    (u ++ w).enumFrom n = u.enumFrom n ++ w.enumFrom (n + u.length) := by
  intro u
  induction u with
  | nil => intro w n; rw [List.nil_append, List.length_nil, Nat.add_zero]; rfl
  | cons x t ih =>
    intro w n
    rw [List.cons_append, List.enumFrom_cons, List.enumFrom_cons, ih w (n + 1),
      List.length_cons, List.cons_append]
    have harith : n + 1 + t.length = n + (t.length + 1) := by omega
    rw [harith]

/-- The enumeration of a block join is the join of the decorated blocks. -/
theorem enumFrom_joinBlocks : ∀ (Bs : List (String × List Detection)) (n : ℕ),
    (joinBlocks Bs).enumFrom n = ((enumBlocks n Bs).map Prod.snd).flatten := by
  intro Bs
  induction Bs with
  | nil => intro n; rfl
  | cons b bs ih =>
    intro n
    rw [joinBlocks, List.map_cons, List.flatten_cons, enumFrom_append_det,
      enumBlocks, List.map_cons, List.flatten_cons]
    congr 1
    exact ih (n + b.2.length)

/-- A sorted block enumerates to a block sorted under the refined
comparator. -/
theorem pairwise_descLE'_enumFrom : ∀ (B : List Detection) (n : ℕ), SortedDesc B →
    (B.enumFrom n).Pairwise descLE' := by
  intro B
  induction B with
  | nil => intro n _; exact List.Pairwise.nil
  | cons x t ih =>
    intro n hsort
    obtain ⟨hx, hst⟩ := List.pairwise_cons.1 hsort
    rw [List.enumFrom_cons, List.pairwise_cons]
    refine ⟨fun q hq => ?_, ih (n + 1) hst⟩
    have h1 : n < q.1 :=
      Nat.lt_of_lt_of_le (Nat.lt_succ_self n) (fst_ge_of_mem_enumFrom hq)
    exact (descLE'_iff h1).2 (hx q.2 (snd_mem_of_mem_enumFrom hq))

/-- Decorating blocks keeps their keys. -/
theorem enumBlocks_map_fst : ∀ (n : ℕ) (Bs : List (String × List Detection)),
    (enumBlocks n Bs).map Prod.fst = Bs.map Prod.fst := by
  intro n Bs
  induction Bs generalizing n with
  | nil => rfl
  | cons b bs ih => rw [enumBlocks, List.map_cons, List.map_cons, ih]

/-- Every decorated block is the enumeration of a block from some offset. -/
theorem mem_enumBlocks : ∀ (n : ℕ) (Bs : List (String × List Detection)) bd,
    bd ∈ enumBlocks n Bs → ∃ b ∈ Bs, ∃ m, n ≤ m ∧ bd = (b.1, b.2.enumFrom m) := by
  intro n Bs
  induction Bs generalizing n with
  | nil => intro bd h; exact absurd h (List.not_mem_nil bd)
  | cons b bs ih =>
    intro bd h
    rcases List.mem_cons.1 h with rfl | h
    · exact ⟨b, List.mem_cons_self b bs, n, le_refl n, rfl⟩
    · obtain ⟨b1, hb1, m, hm, heq⟩ := ih (n + b.2.length) bd h
      exact ⟨b1, List.mem_cons_of_mem b hb1, m,
        le_trans (Nat.le_add_right _ _) hm, heq⟩

/-- Every block is decorated at some offset. -/
theorem enumBlocks_mem_of_mem : ∀ (n : ℕ) (Bs : List (String × List Detection)) b,
    b ∈ Bs → ∃ m, n ≤ m ∧ (b.1, b.2.enumFrom m) ∈ enumBlocks n Bs := by
  intro n Bs
  induction Bs generalizing n with
  | nil => intro b h; exact absurd h (List.not_mem_nil b)
  | cons b0 bs ih =>
    intro b h
    rcases List.mem_cons.1 h with rfl | h
    · exact ⟨n, le_refl n, List.mem_cons_self _ _⟩
    · obtain ⟨m, hm, hmem⟩ := ih (n + b0.2.length) b h
      exact ⟨m, le_trans (Nat.le_add_right _ _) hm, List.mem_cons_of_mem _ hmem⟩

/-- The heads chain is a sublist of the flattened blocks. -/
theorem headsOf_sublist_flatten : ∀ (Bl : List (String × List (ℕ × Detection))),
    (headsOf Bl).Sublist ((Bl.map Prod.snd).flatten) := by
  intro Bl
  induction Bl with
  | nil => exact List.Sublist.refl []
  | cons b bs ih =>
    rw [List.map_cons, List.flatten_cons]
    cases hb : b.2 with
    | nil =>
      have hh : headsOf (b :: bs) = headsOf bs := by
        rw [headsOf, List.filterMap_cons_none (by rw [hb]; rfl)]
        rfl
      rw [hh, List.nil_append]
      exact ih
    | cons q qs =>
      have hh : headsOf (b :: bs) = q :: headsOf bs := by
        rw [headsOf, List.filterMap_cons_some (by rw [hb]; rfl)]
        rfl
      rw [hh]
      exact List.Sublist.cons₂ q (ih.trans (List.sublist_append_right qs _))

/-- Every chain entry is the head of one of the blocks. -/
theorem mem_headsOf {Bl : List (String × List (ℕ × Detection))} {q : ℕ × Detection}
    (h : q ∈ headsOf Bl) : ∃ b ∈ Bl, b.2.head? = some q :=
  List.mem_filterMap.1 h
/-- Heads of decorated blocks form a chain sorted under the refined
comparator: confidences descend and offsets grow. -/
theorem headsOf_chain_pairwise : ∀ (n : ℕ) (Bs : List (String × List Detection)),
    (∀ b ∈ Bs, b.2 ≠ []) →
    Bs.Pairwise (fun b b' => ∀ a a', b.2.head? = some a → b'.2.head? = some a' →
      a'.confidence ≤ a.confidence) →
    (headsOf (enumBlocks n Bs)).Pairwise descLE' := by
  intro n Bs
  induction Bs generalizing n with
  | nil => intro _ _; exact List.Pairwise.nil
  | cons b bs ih =>
    intro hne hpw
    obtain ⟨hhead, hpwt⟩ := List.pairwise_cons.1 hpw
    rcases hb2 : b.2 with _ | ⟨h0, t0⟩
    · exact absurd hb2 (hne b (List.mem_cons_self b bs))
    · have hh : headsOf (enumBlocks n (b :: bs)) =
          (n, h0) :: headsOf (enumBlocks (n + b.2.length) bs) := by
        rw [enumBlocks, headsOf, List.filterMap_cons_some (by rw [hb2]; rfl)]
        rfl
      rw [hh, List.pairwise_cons]
      constructor
      · intro q hq
        obtain ⟨bd, hbd, hqh⟩ := mem_headsOf hq
        obtain ⟨b1, hb1, m, hm, rfl⟩ := mem_enumBlocks _ _ bd hbd
        rcases hb12 : b1.2 with _ | ⟨h1, t1⟩
        · rw [hb12] at hqh
          exact absurd hqh (by simp)
        · rw [hb12, List.enumFrom_cons, List.head?_cons] at hqh
          cases Option.some.inj hqh
          have hconf : h1.confidence ≤ h0.confidence :=
            hhead b1 hb1 h0 h1 (by rw [hb2]; rfl) (by rw [hb12]; rfl)
          have hlen : 0 < b.2.length := by rw [hb2]; exact Nat.succ_pos _
          have hidx : n < m := Nat.lt_of_lt_of_le (Nat.lt_add_of_pos_right hlen) hm
          exact (descLE'_iff hidx).2 hconf
      · exact ih (n + b.2.length) (fun x hx => hne x (List.mem_cons_of_mem b hx)) hpwt

/-- Filtering the flattened blocks by a key predicate keeps exactly the
blocks whose key satisfies it. -/
theorem filter_blocks_flatten (p : String → Bool) :
    ∀ (Bl : List (String × List (ℕ × Detection))),
    (∀ b ∈ Bl, ∀ q ∈ b.2, q.2.cls = b.1) →
    ((Bl.map Prod.snd).flatten).filter (fun q => p q.2.cls) =
      ((Bl.filter (fun b => p b.1)).map Prod.snd).flatten := by
  intro Bl
  induction Bl with
  | nil => intro _; rfl
  | cons b bs ih =>
    intro huni
    rw [List.map_cons, List.flatten_cons, List.filter_append]
    have hrest := ih (fun x hx => huni x (List.mem_cons_of_mem b hx))
    cases hp : p b.1 with
    | true =>
      have hself : b.2.filter (fun q => p q.2.cls) = b.2 :=
        List.filter_eq_self.2 (fun q hq => by
          rw [huni b (List.mem_cons_self b bs) q hq, hp])
      rw [hself, hrest, List.filter_cons, if_pos hp, List.map_cons, List.flatten_cons]
    | false =>
      have hnil : b.2.filter (fun q => p q.2.cls) = [] :=
        List.filter_eq_nil_iff.2 (fun q hq hpq => by
          rw [huni b (List.mem_cons_self b bs) q hq, hp] at hpq
          exact Bool.false_ne_true hpq)
      rw [hnil, hrest, List.filter_cons, if_neg (by rw [hp]; exact Bool.false_ne_true),
        List.nil_append]

/-- With distinct keys, filtering the block list by one of its keys yields
exactly that one block. -/
theorem filter_keyed_blocks : ∀ (Bl : List (String × List (ℕ × Detection))),
    (Bl.map Prod.fst).Nodup → ∀ bd ∈ Bl,
    Bl.filter (fun b => b.1 == bd.1) = [bd] := by
  intro Bl
  induction Bl with
  | nil => intro _ bd h; exact absurd h (List.not_mem_nil bd)
  | cons b bs ih =>
    intro hnodup bd hbd
    have hnodup2 : (b.1 :: bs.map Prod.fst).Nodup := by rwa [List.map_cons] at hnodup
    obtain ⟨hnotin, hnd⟩ := List.nodup_cons.1 hnodup2
    rcases List.mem_cons.1 hbd with rfl | hbd
    · have hnil : bs.filter (fun b => b.1 == bd.1) = [] := by
        apply List.filter_eq_nil_iff.2
        intro x hx hbeq
        have hmem : x.1 ∈ bs.map Prod.fst := List.mem_map_of_mem Prod.fst hx
        rw [beq_iff_eq.1 hbeq] at hmem
        exact hnotin hmem
      rw [List.filter_cons, if_pos (beq_self_eq_true bd.1), hnil]
    · have hne : ¬ (b.1 == bd.1) = true := by
        intro hbeq
        have hmem : bd.1 ∈ bs.map Prod.fst := List.mem_map_of_mem Prod.fst hbd
        rw [← beq_iff_eq.1 hbeq] at hmem
        exact hnotin hmem
      rw [List.filter_cons, if_neg hne]
      exact ih hnd bd hbd
/-- Keys drawn from classes inside E are all filtered away. -/
theorem dedupKeys_filter_nil (E : List String) (u : List Detection)
    (h : ∀ d ∈ u, d.cls ∈ E) :
    (dedupKeys u).filter (fun k => decide (k ∉ E)) = [] := by
  apply List.filter_eq_nil_iff.2
  intro k hk hdec
  obtain ⟨x, hx, rfl⟩ := (mem_dedupKeys u k).1 hk
  exact (of_decide_eq_true hdec) (h x hx)

/-- A nonempty sublist of a cons whose head differs embeds in the tail. -/
theorem cons_sublist_of_ne {x q : ℕ × Detection} {xs w : List (ℕ × Detection)}
    (h : (x :: xs).Sublist (q :: w)) (hne : x ≠ q) : (x :: xs).Sublist w := by
  cases h with
  | cons _ h => exact h
  | cons₂ _ h => exact absurd rfl hne

/-- Characterization of the key order: on a duplicate-free decorated list
whose class buckets realize a block list with a sublist chain of heads, the
first-appearance key order is exactly the block key order (classes from E
are processed already and excluded). -/
theorem dedupKeys_spec : ∀ (v : List (ℕ × Detection)) (E : List String)
    (Bl : List (String × List (ℕ × Detection))),
    v.Nodup →
    (∀ q ∈ v, q.2.cls ∈ E ∨ q.2.cls ∈ Bl.map Prod.fst) →
    (∀ k ∈ Bl.map Prod.fst, k ∉ E) →
    (Bl.map Prod.fst).Nodup →
    (∀ b ∈ Bl, v.filter (fun q => q.2.cls == b.1) = b.2 ∧ b.2 ≠ []) →
    (headsOf Bl).Sublist v →
    (dedupKeys (v.map Prod.snd)).filter (fun k => decide (k ∉ E)) = Bl.map Prod.fst := by
  intro v
  induction v with
  | nil =>
    intro E Bl _ _ _ _ hgrp _
    cases Bl with
    | nil => rfl
    | cons b bs =>
      obtain ⟨hfil, hne⟩ := hgrp b (List.mem_cons_self b bs)
      exact absurd hfil.symm hne
  | cons q w ih =>
    intro E Bl hnodup hcov hdisj hknd hgrp hchain
    obtain ⟨hqw, hwnd⟩ := List.nodup_cons.1 hnodup
    cases Bl with
    | nil =>
      apply dedupKeys_filter_nil
      intro d hd
      obtain ⟨x, hx, rfl⟩ := List.mem_map.1 hd
      rcases hcov x hx with hE | hK
      · exact hE
      · exact absurd hK (List.not_mem_nil _)
    | cons b bs =>
      have hbscls : ∀ b1, b1 ∈ b :: bs → ∀ x ∈ b1.2, x.2.cls = b1.1 := by
        intro b1 hb1 x hx
        have hfil := (hgrp b1 hb1).1
        rw [← hfil] at hx
        exact beq_iff_eq.1 (List.mem_filter.1 hx).2
      have hknd2 : (b.1 :: bs.map Prod.fst).Nodup := by
        rwa [List.map_cons] at hknd
      obtain ⟨hbnotin, hbsnd⟩ := List.nodup_cons.1 hknd2
      rw [List.map_cons, dedupKeys]
      rcases hcov q (List.mem_cons_self q w) with hE | hK
      · -- the class of q was already processed: every block key differs
        have hkeyne : ∀ b1, b1 ∈ b :: bs → b1.1 ≠ q.2.cls := by
          intro b1 hb1 hceq
          exact hdisj b1.1 (List.mem_map_of_mem Prod.fst hb1) (hceq ▸ hE)
        have hgrp2 : ∀ b1 ∈ b :: bs,
            w.filter (fun r => r.2.cls == b1.1) = b1.2 ∧ b1.2 ≠ [] := by
          intro b1 hb1
          obtain ⟨hfil, hne⟩ := hgrp b1 hb1
          rw [List.filter_cons, if_neg (by
            intro hbeq
            exact hkeyne b1 hb1 (beq_iff_eq.1 hbeq).symm)] at hfil
          exact ⟨hfil, hne⟩
        have hchain2 : (headsOf (b :: bs)).Sublist w := by
          rcases hb2 : b.2 with _ | ⟨h0, t0⟩
          · exact absurd hb2 (hgrp b (List.mem_cons_self b bs)).2
          · have hh : headsOf (b :: bs) = h0 :: headsOf bs := by
              rw [headsOf, List.filterMap_cons_some (by rw [hb2]; rfl)]
              rfl
            rw [hh] at hchain ⊢
            apply cons_sublist_of_ne hchain
            intro hqeq
            have hc0 : h0.2.cls = b.1 :=
              hbscls b (List.mem_cons_self b bs) h0 (by rw [hb2]; exact List.mem_cons_self h0 t0)
            exact hkeyne b (List.mem_cons_self b bs) (by rw [← hc0, hqeq])
        have hEdec : ¬ (decide (q.2.cls ∉ E)) = true := by
          simp only [decide_eq_true_eq, not_not]
          exact hE
        rw [List.filter_cons, if_neg hEdec, List.filter_filter]
        have hcongr : ∀ k ∈ dedupKeys (w.map Prod.snd),
            ((decide (k ∉ E)) && (k != q.2.cls)) = decide (k ∉ E) := by
          intro k _
          by_cases hkc : k = q.2.cls
          · rw [hkc]
            have : decide (q.2.cls ∉ E) = false := by
              simp only [decide_eq_false_iff_not, not_not]
              exact hE
            rw [this, Bool.false_and]
          · rw [bne_iff_ne.2 hkc, Bool.and_true]
        rw [List.filter_congr hcongr]
        exact ih E (b :: bs) hwnd
          (fun r hr => hcov r (List.mem_cons_of_mem q hr)) hdisj hknd hgrp2 hchain2
      · -- the class of q heads the first block
        have hb1c : b.1 = q.2.cls := by
          by_contra hbc
          rw [List.map_cons] at hK
          rcases List.mem_cons.1 hK with hqb | hqbs
          · exact hbc hqb.symm
          · obtain ⟨b0, hb0, hb0c⟩ := List.mem_map.1 hqbs
            have hfil0 := (hgrp b0 (List.mem_cons_of_mem b hb0)).1
            rw [List.filter_cons, if_pos (by rw [hb0c]; exact beq_self_eq_true _)] at hfil0
            rcases hb2 : b.2 with _ | ⟨h0, t0⟩
            · exact absurd hb2 (hgrp b (List.mem_cons_self b bs)).2
            · have hh : headsOf (b :: bs) = h0 :: headsOf bs := by
                rw [headsOf, List.filterMap_cons_some (by rw [hb2]; rfl)]
                rfl
              rw [hh] at hchain
              have hc0 : h0.2.cls = b.1 :=
                hbscls b (List.mem_cons_self b bs) h0
                  (by rw [hb2]; exact List.mem_cons_self h0 t0)
              have hch2 : (h0 :: headsOf bs).Sublist w := by
                apply cons_sublist_of_ne hchain
                intro hqeq
                exact hbc (by rw [← hc0, hqeq])
              have hqheads : q ∈ headsOf bs := by
                apply List.mem_filterMap.2
                refine ⟨b0, hb0, ?_⟩
                rw [← hfil0]
                rfl
              have hqw2 : q ∈ w :=
                (List.sublist_of_cons_sublist hch2).subset hqheads
              exact hqw hqw2
        -- now the first block key equals the class of q
        have hfilb := (hgrp b (List.mem_cons_self b bs)).1
        rw [List.filter_cons, if_pos (by rw [hb1c]; exact beq_self_eq_true _)] at hfilb
        have hEdec : (decide (q.2.cls ∉ E)) = true := by
          simp only [decide_eq_true_eq]
          exact hb1c ▸ hdisj b.1 (List.mem_map_of_mem Prod.fst (List.mem_cons_self b bs))
        rw [List.filter_cons, if_pos hEdec, List.filter_filter]
        have hcongr : ∀ k ∈ dedupKeys (w.map Prod.snd),
            ((decide (k ∉ E)) && (k != q.2.cls)) = decide (k ∉ q.2.cls :: E) := by
          intro k _
          by_cases hkc : k = q.2.cls
          · rw [hkc, bne_self_eq_false, Bool.and_false]
            have : ¬ q.2.cls ∉ q.2.cls :: E := fun hcon =>
              hcon (List.mem_cons_self _ _)
            rw [decide_eq_false this]
          · by_cases hkE : k ∈ E
            · have h1 : decide (k ∉ E) = false := by
                simp only [decide_eq_false_iff_not, not_not]
                exact hkE
              have h2 : decide (k ∉ q.2.cls :: E) = false := by
                simp only [decide_eq_false_iff_not, not_not]
                exact List.mem_cons_of_mem _ hkE
              rw [h1, h2, Bool.false_and]
            · have h1 : decide (k ∉ E) = true := decide_eq_true hkE
              have h2 : decide (k ∉ q.2.cls :: E) = true := by
                apply decide_eq_true
                intro hcon
                rcases List.mem_cons.1 hcon with hcon | hcon
                · exact hkc hcon
                · exact hkE hcon
              rw [h1, h2, bne_iff_ne.2 hkc, Bool.and_true]
        rw [List.filter_congr hcongr]
        have hgrp2 : ∀ b1 ∈ bs, w.filter (fun r => r.2.cls == b1.1) = b1.2 ∧ b1.2 ≠ [] := by
          intro b1 hb1
          obtain ⟨hfil, hne⟩ := hgrp b1 (List.mem_cons_of_mem b hb1)
          rw [List.filter_cons, if_neg (by
            intro hbeq
            have : b1.1 ∈ bs.map Prod.fst := List.mem_map_of_mem Prod.fst hb1
            rw [← (beq_iff_eq.1 hbeq), ← hb1c] at this
            exact hbnotin this)] at hfil
          exact ⟨hfil, hne⟩
        have hchain2 : (headsOf bs).Sublist w := by
          have hh : headsOf (b :: bs) = q :: headsOf bs := by
            rw [headsOf, List.filterMap_cons_some (by rw [← hfilb]; rfl)]
            rfl
          rw [hh] at hchain
          exact List.cons_sublist_cons.1 hchain
        have hcov2 : ∀ r ∈ w, r.2.cls ∈ q.2.cls :: E ∨ r.2.cls ∈ bs.map Prod.fst := by
          intro r hr
          rcases hcov r (List.mem_cons_of_mem q hr) with hE2 | hK2
          · exact Or.inl (List.mem_cons_of_mem _ hE2)
          · rw [List.map_cons] at hK2
            rcases List.mem_cons.1 hK2 with hc | hc
            · exact Or.inl (by rw [hc, hb1c]; exact List.mem_cons_self _ _)
            · exact Or.inr hc
        have hdisj2 : ∀ k ∈ bs.map Prod.fst, k ∉ q.2.cls :: E := by
          intro k hk hcon
          rcases List.mem_cons.1 hcon with hc | hc
          · rw [← hb1c] at hc
            exact hbnotin (hc ▸ hk)
          · exact hdisj k (by rw [List.map_cons]; exact List.mem_cons_of_mem _ hk) hc
        rw [List.map_cons, hb1c]
        congr 1
        exact ih (q.2.cls :: E) bs hwnd hcov2 hdisj2 hbsnd hgrp2 hchain2
/-- When the class buckets of s realize the blocks, the group passes
reproduce the join of the blocks. -/
theorem nmsGroups_reconstruct : ∀ (Bs : List (String × List Detection))
    (s sel : List Detection),
    (Bs.map Prod.fst).Nodup →
    (∀ b ∈ Bs, classGroup s b.1 = b.2) →
    (∀ b ∈ Bs, b.2.Pairwise okD) →
    (∀ b ∈ Bs, ∀ d ∈ b.2, d.cls = b.1) →
    (∀ d ∈ sel, d.cls ∉ Bs.map Prod.fst) →
    nmsGroups s sel (Bs.map Prod.fst) = sel ++ joinBlocks Bs := by
  intro Bs
  induction Bs with
  | nil =>
    intro s sel _ _ _ _ _
    rw [List.map_nil, nmsGroups, joinBlocks, List.map_nil, List.flatten_nil,
      List.append_nil]
  | cons b bs ih =>
    intro s sel hknd hgrp hpair huni hforeign
    have hknd2 : (b.1 :: bs.map Prod.fst).Nodup := by rwa [List.map_cons] at hknd
    obtain ⟨hbnotin, hbsnd⟩ := List.nodup_cons.1 hknd2
    rw [List.map_cons, nmsGroups, hgrp b (List.mem_cons_self b bs)]
    have hkeep : processClass sel b.2 = sel ++ b.2 := by
      apply processClass_keep_all
      · intro x hx o ho hocls
        exfalso
        apply hforeign o ho
        rw [List.map_cons, hocls, huni b (List.mem_cons_self b bs) x hx]
        exact List.mem_cons_self _ _
      · exact hpair b (List.mem_cons_self b bs)
    rw [hkeep, ih s (sel ++ b.2) hbsnd
      (fun b1 hb1 => hgrp b1 (List.mem_cons_of_mem b hb1))
      (fun b1 hb1 => hpair b1 (List.mem_cons_of_mem b hb1))
      (fun b1 hb1 => huni b1 (List.mem_cons_of_mem b hb1)) ?_]
    · simp only [joinBlocks, List.map_cons, List.flatten_cons, List.append_assoc]
    · intro d hd hdk
      rcases List.mem_append.1 hd with hd | hd
      · exact hforeign d hd (by rw [List.map_cons]; exact List.mem_cons_of_mem _ hdk)
      · have hmem : b.1 ∈ bs.map Prod.fst := by
          rw [← huni b (List.mem_cons_self b bs) d hd]
          exact hdk
        exact hbnotin hmem

/-- Claim 2 of the idempotence argument: the suppressor fixes the join of
every well-formed block list. -/
theorem applyNMS_fixed (Bs : List (String × List Detection)) (hG : GoodBlocks Bs) :
    applyNMS (joinBlocks Bs) = joinBlocks Bs := by
  obtain ⟨hknd, hblocks, hheads⟩ := hG
  have hEflat : (joinBlocks Bs).enumFrom 0 = ((enumBlocks 0 Bs).map Prod.snd).flatten :=
    enumFrom_joinBlocks Bs 0
  set sd := ((joinBlocks Bs).enumFrom 0).insertionSort descLE' with hsd
  have hperm : List.Perm sd ((joinBlocks Bs).enumFrom 0) :=
    List.perm_insertionSort descLE' _
  have hnd : sd.Nodup := hperm.nodup_iff.2 (nodup_enumFrom _ 0)
  have hsnd : sd.map Prod.snd = sortDesc (joinBlocks Bs) := map_snd_insertionSort _ 0
  have huniD : ∀ bd ∈ enumBlocks 0 Bs, ∀ q ∈ bd.2, q.2.cls = bd.1 := by
    intro bd hbd q hq
    obtain ⟨b, hb, m, -, rfl⟩ := mem_enumBlocks 0 Bs bd hbd
    exact (hblocks b hb).2.1 q.2 (snd_mem_of_mem_enumFrom hq)
  have hgrpD : ∀ bd ∈ enumBlocks 0 Bs,
      sd.filter (fun q => q.2.cls == bd.1) = bd.2 ∧ bd.2 ≠ [] := by
    intro bd hbd
    obtain ⟨b, hb, m, -, hbdeq⟩ := mem_enumBlocks 0 Bs bd hbd
    obtain ⟨hbne, -, hbsort, -⟩ := hblocks b hb
    have hbd2 : bd.2 = b.2.enumFrom m := by rw [hbdeq]
    constructor
    · have hsubE : bd.2.Sublist ((joinBlocks Bs).enumFrom 0) := by
        rw [hEflat]
        exact List.sublist_flatten_of_mem (List.mem_map_of_mem Prod.snd hbd)
      have hpairB : bd.2.Pairwise descLE' := by
        rw [hbd2]
        exact pairwise_descLE'_enumFrom b.2 m hbsort
      have hsubS : bd.2.Sublist sd := List.sublist_insertionSort hpairB hsubE
      have hfilself : bd.2.filter (fun q => q.2.cls == bd.1) = bd.2 :=
        List.filter_eq_self.2 (fun q hq => beq_iff_eq.2 (huniD bd hbd q hq))
      have hsubF : bd.2.Sublist (sd.filter (fun q => q.2.cls == bd.1)) := by
        rw [← hfilself]
        exact hsubS.filter _
      have hEfil : ((joinBlocks Bs).enumFrom 0).filter
          (fun q => q.2.cls == bd.1) = bd.2 := by
        have hfbf : (((enumBlocks 0 Bs).map Prod.snd).flatten).filter
            (fun q => q.2.cls == bd.1) =
            (((enumBlocks 0 Bs).filter (fun b => b.1 == bd.1)).map Prod.snd).flatten :=
          filter_blocks_flatten (fun c => c == bd.1) (enumBlocks 0 Bs) huniD
        have hkey : (enumBlocks 0 Bs).filter (fun b => b.1 == bd.1) = [bd] :=
          filter_keyed_blocks (enumBlocks 0 Bs)
            (by rw [enumBlocks_map_fst]; exact hknd) bd hbd
        rw [hEflat, hfbf, hkey, List.map_cons, List.map_nil, List.flatten_cons,
          List.flatten_nil, List.append_nil]
      have hlen : (sd.filter (fun q => q.2.cls == bd.1)).length = bd.2.length := by
        rw [(hperm.filter _).length_eq, hEfil]
      exact (hsubF.eq_of_length hlen.symm).symm
    · rw [hbd2]
      rcases hb2 : b.2 with _ | ⟨h0, t0⟩
      · exact absurd hb2 hbne
      · rw [List.enumFrom_cons]
        exact List.cons_ne_nil _ _
  have hchain : (headsOf (enumBlocks 0 Bs)).Sublist sd := by
    apply List.sublist_insertionSort
    · exact headsOf_chain_pairwise 0 Bs (fun b hb => (hblocks b hb).1) hheads
    · rw [hEflat]
      exact headsOf_sublist_flatten _
  have hcov : ∀ q ∈ sd, q.2.cls ∈ (enumBlocks 0 Bs).map Prod.fst := by
    intro q hq
    have hqE := hperm.subset hq
    rw [hEflat] at hqE
    obtain ⟨u, hu, hqu⟩ := List.mem_flatten.1 hqE
    obtain ⟨bd, hbd, rfl⟩ := List.mem_map.1 hu
    rw [huniD bd hbd q hqu]
    exact List.mem_map_of_mem Prod.fst hbd
  have hdedup : dedupKeys (sortDesc (joinBlocks Bs)) = Bs.map Prod.fst := by
    have hspec := dedupKeys_spec sd [] (enumBlocks 0 Bs) hnd
      (fun q hq => Or.inr (hcov q hq))
      (fun k _ => List.not_mem_nil k)
      (by rw [enumBlocks_map_fst]; exact hknd) hgrpD hchain
    rw [hsnd, enumBlocks_map_fst] at hspec
    rwa [List.filter_eq_self.2 (fun a _ => decide_eq_true (List.not_mem_nil a))] at hspec
  have hgrpP : ∀ b ∈ Bs, classGroup (sortDesc (joinBlocks Bs)) b.1 = b.2 := by
    intro b hb
    obtain ⟨m, -, hmem⟩ := enumBlocks_mem_of_mem 0 Bs b hb
    have hf : sd.filter (fun q => q.2.cls == b.1) = b.2.enumFrom m := (hgrpD _ hmem).1
    unfold classGroup
    rw [← hsnd, List.filter_map]
    have hcomp : ((fun d : Detection => d.cls == b.1) ∘ Prod.snd) =
        (fun q : ℕ × Detection => q.2.cls == b.1) := rfl
    rw [hcomp, hf]
    exact List.enumFrom_map_snd m b.2
  rw [applyNMS, hdedup]
  rw [nmsGroups_reconstruct Bs (sortDesc (joinBlocks Bs)) [] hknd hgrpP
    (fun b hb => (hblocks b hb).2.2.2) (fun b hb => (hblocks b hb).2.1)
    (fun d hd => absurd hd (List.not_mem_nil d))]
  rw [List.nil_append]

/-- C7: the suppressor is idempotent: applying applyNMS to its own output
returns that output unchanged, for every input list. -/
theorem spec_C7 : ∀ l : List Detection, applyNMS (applyNMS l) = applyNMS l := by
  intro l
  obtain ⟨Bs, hG, heq⟩ := applyNMS_good l
  rw [heq, applyNMS_fixed Bs hG]
end SaungDetect
